import Mathlib

/-!
# Verification of the warehousebot routing and motion-planning engine

Shallow embedding of the warehouse simulation core (route planner,
static A* path planner, motion/avoidance controller, episode scheduler,
pedestrian model) together with proofs of the specified properties.

Grid cells are pairs of integers `(row, col)`.  JavaScript numbers are
modelled by `Int`/`Nat` (all arithmetic in the embedded code is integer
arithmetic); JavaScript runtime failures (accessing a missing key) are
modelled by `Option`; `Math.random`-driven choices are modelled by
explicit oracle functions supplied as arguments.
-/

abbrev Cell := Int × Int

/-- Manhattan distance `|a.r - b.r| + |a.c - b.c|`, the `h`/`dist` of the
source (`Math.abs(a[0]-b[0]) + Math.abs(a[1]-b[1])`), valued in `Nat`. -/
def manhattan (a b : Cell) : Nat := (a.1 - b.1).natAbs + (a.2 - b.2).natAbs

/-- The static layout document (`layout-*.json`): grid size, shelf
obstacles, item label-to-cell map, dock and optional drop cell. -/
structure Layout where
  rows : Int
  cols : Int
  obstacles : List Cell
  items : List (String × Cell)
  dock : Cell
  drop : Option Cell

/-- `inBounds(r,c)` from the source: `r >= 0 && r < rows && c >= 0 && c < cols`. -/
def inBoundsP (L : Layout) (r c : Int) : Prop :=
  0 ≤ r ∧ r < L.rows ∧ 0 ≤ c ∧ c < L.cols

instance (L : Layout) (r c : Int) : Decidable (inBoundsP L r c) :=
  inferInstanceAs (Decidable (0 ≤ r ∧ r < L.rows ∧ 0 ≤ c ∧ c < L.cols))

/-- `isBlockedByShelves(r,c)`: membership in `layout.obstacles`. -/
def isBlockedByShelves (L : Layout) (x : Cell) : Prop := x ∈ L.obstacles

instance (L : Layout) (x : Cell) : Decidable (isBlockedByShelves L x) :=
  inferInstanceAs (Decidable (x ∈ L.obstacles))

/-- `Object.values(layout.items)`: the list of item cells. -/
def itemCells (L : Layout) : List Cell := L.items.map Prod.snd

/-! ## Route planner: nearest-neighbor construction

`orderByNearestNeighbor(labels, itemMap, start)` from the source.  The
item map is a function `String → Option Cell` (a missing key yields
`none`; in JavaScript, destructuring `undefined` throws, which the
embedding models by propagating `none` with no partial result). -/

/-- The scan
`for i: dist = |cur-itemMap[remaining[i]]|; if dist < bestDist update`
over the remaining labels.  `i` is the absolute index of the head of
`rest` in the JavaScript `remaining` array, `best` the best
`(index, distance)` found so far (`none` models `bestDist = Infinity`).
Returns `none` iff some label's cell lookup fails. -/
def findBest (itemMap : String → Option Cell) (cur : Cell) :
    List String → Nat → Option (Nat × Nat) → Option (Option (Nat × Nat))
  | [], _, best => some best
  | l :: rest, i, best =>
    match itemMap l with
    | none => none
    | some cell =>
      let d := manhattan cur cell
      let better : Bool :=
        match best with
        | none => true
        | some (_, bd) => decide (d < bd)
      findBest itemMap cur rest (i + 1) (if better then some (i, d) else best)

/-- The `while (remaining.length > 0)` loop of `orderByNearestNeighbor`:
find the nearest remaining label, splice it out, append it, move there.
Each iteration removes exactly one label, so `fuel = remaining.length`
makes the fuelled recursion exact. -/
def nnLoop (itemMap : String → Option Cell) :
    Nat → Cell → List String → Option (List String)
  | 0, _, remaining => if remaining = [] then some [] else none
  | fuel + 1, cur, remaining =>
    if remaining = [] then some []
    else
      match findBest itemMap cur remaining 0 none with
      | none => none
      | some none => none
      | some (some (idx, _)) =>
        match remaining[idx]? with
        | none => none
        | some lbl =>
          match itemMap lbl with
          | none => none
          | some cell =>
            (nnLoop itemMap fuel cell (remaining.eraseIdx idx)).map (lbl :: ·)

/-- `orderByNearestNeighbor(labels, itemMap, start)`. -/
def orderByNearestNeighbor (labels : List String)
    (itemMap : String → Option Cell) (start : Cell) : Option (List String) :=
  nnLoop itemMap labels.length start labels

/-! ## Route planner: 2-opt refinement -/

/-- In-place segment reversal
`arr.splice(i, j - i + 1, ...arr.slice(i, j + 1).reverse())`. -/
def reverseSegment (l : List α) (i j : Nat) : List α :=
  l.take i ++ ((l.drop i).take (j + 1 - i)).reverse ++ l.drop (j + 1)

/-- Total Manhattan length of the polyline through a list of cells
(sum of consecutive distances). -/
def pathLen : List Cell → Nat
  | [] => 0
  | [_] => 0
  | x :: y :: rest => manhattan x y + pathLen (y :: rest)

/-- State of the 2-opt loops: the coordinate path, the parallel label
sequence, and the `improved` flag. -/
structure TwoOptSt where
  path : List Cell
  labels : List String
  improved : Bool

/-- Body of the inner double loop of `twoOptImprove` at indices `(i, j)`:
compare the two current edges `(a,b)`, `(c,d)` against the reversed
arrangement `(a,c)`, `(b,d)` and accept the reversal iff it strictly
improves.  The source test `alt + 1e-4 < cur` on integer Manhattan
distances is exactly `alt < cur`. -/
def twoOptStep (st : TwoOptSt) (i j : Nat) : TwoOptSt :=
  let a := st.path.getD (i - 1) (0, 0)
  let b := st.path.getD i (0, 0)
  let c := st.path.getD j (0, 0)
  let d := st.path.getD (j + 1) (0, 0)
  let cur := manhattan a b + manhattan c d
  let alt := manhattan a c + manhattan b d
  if alt < cur then
    { path := reverseSegment st.path i j
      labels := reverseSegment st.labels (i - 1) (j - 1)
      improved := true }
  else st

/-- One full pass of the double `for` loop:
`for i in [1, len-3]: for j in [i+1, len-2]: twoOptStep`.
`len` is the (invariant) length of the path. -/
def twoOptPass (len : Nat) (st : TwoOptSt) : TwoOptSt :=
  (List.range' 1 (len - 3)).foldl
    (fun st1 i => (List.range' (i + 1) (len - 2 - i)).foldl
      (fun st2 j => twoOptStep st2 i j) st1)
    st

/-- The `while (improved && guard < 40)` loop (fuelled by `guard`). -/
def twoOptLoop (len : Nat) : Nat → TwoOptSt → TwoOptSt
  | 0, st => st
  | g + 1, st =>
    let st1 := twoOptPass len { st with improved := false }
    if st1.improved then twoOptLoop len g st1 else st1

/-- `itemMap[k]` as used by `twoOptImprove`: callers only invoke it on
labels validated by `orderByNearestNeighbor`, so the default cell is
never consulted there. -/
def cellOf (itemMap : String → Option Cell) (k : String) : Cell :=
  (itemMap k).getD (0, 0)

/-- `twoOptImprove(order, itemMap, start)`. -/
def twoOptImprove (order : List String) (itemMap : String → Option Cell)
    (start : Cell) : List String :=
  let path := start :: order.map (cellOf itemMap)
  (twoOptLoop path.length 40 { path := path, labels := order, improved := true }).labels

/-- Tour length of a label route: start cell through the item cells in
route order (the quantity 2-opt locally improves). -/
def tourLen (itemMap : String → Option Cell) (start : Cell)
    (order : List String) : Nat :=
  pathLen (start :: order.map (cellOf itemMap))

/-- Invariant carried through the 2-opt loops: the label sequence stays
a permutation of the input, the coordinate path stays the start cell
followed by the labels' cells in order, and the total path length never
increases from the input path. -/
def TwoOptGood (itemMap : String → Option Cell) (start : Cell)
    (labels0 : List String) (st : TwoOptSt) : Prop :=
  st.labels.Perm labels0 ∧
  st.path = start :: st.labels.map (cellOf itemMap) ∧
  pathLen st.path ≤ pathLen (start :: labels0.map (cellOf itemMap))

/-- A small concrete item map used for concrete evaluations:
labels `A`, `B` mapped to cells, everything else missing. -/
def sampleItemMap : String → Option Cell := fun l =>
  if l = "A" then some (0, 1) else if l = "B" then some (0, 2) else none

/-- A concrete 2-opt state whose `(i,j) = (1,2)` edge swap is improving. -/
def sampleTwoOptSt : TwoOptSt :=
  { path := [(0, 0), (0, 2), (0, 1), (0, 3)]
    labels := ["a", "b", "c"]
    improved := false }

/-! ## Pedestrian model -/

/-- A pedestrian: current cell and current heading. -/
structure Person where
  pos : Cell
  dir : Cell
deriving DecidableEq

/-- One iteration of the `spawnPeople` rejection-sampling loop.
Candidates are `randInt(0, rows-1)` / `randInt(0, cols-1)`, modelled by
reducing an arbitrary oracle value modulo the grid dimensions; rejected
candidates are shelves, item cells, the dock, and the drop cell
(`layout.drop || [-1,-1]`).  `fuel` is the remaining retry budget
(`guard < 4000`), `i` the oracle index, `acc` the accepted list. -/
def spawnCand (L : Layout) (rc : Nat → Nat × Nat) (i : Nat) : Cell :=
  (((rc i).1 : Int) % L.rows, ((rc i).2 : Int) % L.cols)

def spawnGo (L : Layout) (rc : Nat → Nat × Nat) (rdir : Nat → Cell) (n : Nat) :
    Nat → Nat → List Person → List Person
  | 0, _, acc => acc
  | fuel + 1, i, acc =>
    if acc.length < n then
      if isBlockedByShelves L (spawnCand L rc i) then spawnGo L rc rdir n fuel (i + 1) acc
      else if spawnCand L rc i ∈ itemCells L then spawnGo L rc rdir n fuel (i + 1) acc
      else if spawnCand L rc i = L.dock ∨ spawnCand L rc i = L.drop.getD (-1, -1) then
        spawnGo L rc rdir n fuel (i + 1) acc
      else spawnGo L rc rdir n fuel (i + 1)
        (acc ++ [{ pos := spawnCand L rc i, dir := rdir i }])
    else acc

/-- `spawnPeople(n)` with its retry cap of 4000. -/
def spawnPeople (L : Layout) (rc : Nat → Nat × Nat) (rdir : Nat → Cell)
    (n : Nat) : List Person :=
  spawnGo L rc rdir n 4000 0 []

/-- One pedestrian step of `stepPeople`: optional random redirection,
forward move, bounce to the reversed direction on conflict (out of
bounds, shelf, item cell, or the bot), and stay in place if the bounce
also conflicts (the bounce recheck does not test the bot). -/
def stepOnePerson (L : Layout) (bot : Cell) (redir : Bool) (nd : Cell)
    (p : Person) : Person :=
  let d := if redir then nd else p.dir
  let n1 : Cell := (p.pos.1 + d.1, p.pos.2 + d.2)
  if ¬ inBoundsP L n1.1 n1.2 ∨ isBlockedByShelves L n1 ∨ n1 ∈ itemCells L ∨ n1 = bot then
    let d2 : Cell := (-d.1, -d.2)
    let n2 : Cell := (p.pos.1 + d2.1, p.pos.2 + d2.2)
    if ¬ inBoundsP L n2.1 n2.2 ∨ isBlockedByShelves L n2 ∨ n2 ∈ itemCells L then
      { pos := p.pos, dir := d2 }
    else { pos := n2, dir := d2 }
  else { pos := n1, dir := d }

/-- `stepPeople()` maps the per-person step over the pedestrian list,
consuming one redirect flag and one direction choice per pedestrian. -/
def stepPeopleGo (L : Layout) (bot : Cell) (rb : Nat → Bool) (rd : Nat → Cell) :
    Nat → List Person → List Person
  | _, [] => []
  | i, p :: ps => stepOnePerson L bot (rb i) (rd i) p :: stepPeopleGo L bot rb rd (i + 1) ps

def stepPeople (L : Layout) (bot : Cell) (rb : Nat → Bool) (rd : Nat → Cell)
    (people : List Person) : List Person :=
  stepPeopleGo L bot rb rd 0 people

/-- The pedestrian position invariant: in bounds, not on a shelf, not on
an item cell. -/
def GoodPos (L : Layout) (x : Cell) : Prop :=
  inBoundsP L x.1 x.2 ∧ ¬ isBlockedByShelves L x ∧ x ∉ itemCells L

instance (L : Layout) (x : Cell) : Decidable (GoodPos L x) :=
  inferInstanceAs (Decidable (inBoundsP L x.1 x.2 ∧ ¬ isBlockedByShelves L x ∧ x ∉ itemCells L))

/-- Default pedestrian used for index-based access. -/
def defaultPerson : Person := { pos := (0, 0), dir := (0, 0) }

/-- A layout so dense (one cell, which is the dock) that pedestrian
rejection sampling can never place anyone. -/
def denseLayout : Layout :=
  { rows := 1, cols := 1, obstacles := [], items := [], dock := (0, 0), drop := none }

/-- A small obstacle-free layout for concrete evaluations. -/
def openLayout : Layout :=
  { rows := 3, cols := 3, obstacles := [], items := [], dock := (0, 0), drop := none }

/-! ## Static A* path planner (`astarStatic`)

Search nodes `{r, c, g, f, parent}`; `parent: null` is the `root`
constructor.  The JS `Map` keyed by `"r,c"` strings is an association
list keyed by cells (the string encoding of a cell is injective);
`Map.set` replaces in place, preserving insertion order, and appends
new keys; the `closed` `Set` is a list of cells. -/

inductive ANode : Type where
  | root (r c : Int) (g f : Nat)
  | node (r c : Int) (g f : Nat) (parent : ANode)

def ANode.r : ANode → Int
  | .root r _ _ _ => r
  | .node r _ _ _ _ => r

def ANode.c : ANode → Int
  | .root _ c _ _ => c
  | .node _ c _ _ _ => c

def ANode.g : ANode → Nat
  | .root _ _ g _ => g
  | .node _ _ g _ _ => g

def ANode.f : ANode → Nat
  | .root _ _ _ f => f
  | .node _ _ _ f _ => f

def ANode.cell (n : ANode) : Cell := (n.r, n.c)

/-- Path reconstruction: `while (cur.parent) path.push([cur.r,cur.c])`
then reverse — the chain cells from below the root to the node. -/
def reconstruct : ANode → List Cell
  | .root _ _ _ _ => []
  | .node r c _ _ p => reconstruct p ++ [(r, c)]

/-- `Map.set`: replace in place if the key is present, else append. -/
def mapSet : List (Cell × ANode) → Cell → ANode → List (Cell × ANode)
  | [], k, v => [(k, v)]
  | kn :: t, k, v => if kn.1 = k then (k, v) :: t else kn :: mapSet t k v

/-- `Map.get`. -/
def lookupCell : List (Cell × ANode) → Cell → Option ANode
  | [], _ => none
  | kn :: t, k => if kn.1 = k then some kn.2 else lookupCell t k

/-- The `for (const [k,n] of open) if (n.f < bestF)` scan: the first
entry with minimal `f` in iteration (insertion) order. -/
def findMin : List (Cell × ANode) → Option (Cell × ANode)
  | [] => none
  | kn :: t =>
    match findMin t with
    | none => some kn
    | some best => if best.2.f < kn.2.f then some best else some kn

/-- Neighbor directions, in source order. -/
def dirs : List Cell := [(1, 0), (-1, 0), (0, 1), (0, -1)]

def moveCell (m : ANode) (d : Cell) : Cell := (m.r + d.1, m.c + d.2)

/-- A successor node: `g = parent.g + 1`, `f = g + h(cell, goal)`. -/
def newANode (goal : Cell) (m : ANode) (x : Cell) : ANode :=
  .node x.1 x.2 (m.g + 1) (m.g + 1 + manhattan x goal) m

/-- The neighbor loop body: skip out-of-bounds, shelf-blocked and
closed cells; push/replace when new or strictly cheaper (`g < prev.g`). -/
def relax (L : Layout) (goal : Cell) (closed : List Cell) (m : ANode)
    (acc : List (Cell × ANode)) (d : Cell) : List (Cell × ANode) :=
  if ¬ inBoundsP L (moveCell m d).1 (moveCell m d).2 then acc
  else if moveCell m d ∈ L.obstacles then acc
  else if moveCell m d ∈ closed then acc
  else
    match lookupCell acc (moveCell m d) with
    | some prev =>
      if m.g + 1 < prev.g then mapSet acc (moveCell m d) (newANode goal m (moveCell m d))
      else acc
    | none => mapSet acc (moveCell m d) (newANode goal m (moveCell m d))

def expandNode (L : Layout) (goal : Cell) (closed : List Cell) (m : ANode)
    (opn : List (Cell × ANode)) : List (Cell × ANode) :=
  dirs.foldl (relax L goal closed m) opn

/-- The `while (open.size)` loop: pop the best node (delete from open,
add to closed — the key is never already closed, so `Set.add` is a
cons), return the reconstructed path on reaching the goal, else expand.
The fuel exceeds the number of distinct keys that can ever be popped,
so it never runs out (proved in the adequacy lemma). -/
def astarLoop (L : Layout) (goal : Cell) :
    Nat → List (Cell × ANode) → List Cell → List Cell
  | 0, _, _ => []
  | fuel + 1, opn, closed =>
    match findMin opn with
    | none => []
    | some kn =>
      if kn.2.r = goal.1 ∧ kn.2.c = goal.2 then reconstruct kn.2
      else
        astarLoop L goal fuel
          (expandNode L goal (kn.1 :: closed) kn.2 (opn.filter (fun p => p.1 ≠ kn.1)))
          (kn.1 :: closed)

/-- `astarStatic(start, goal)`: shelves-only A* with Manhattan
heuristic. -/
def astarStatic (L : Layout) (start goal : Cell) : List Cell :=
  astarLoop L goal (L.rows.toNat * L.cols.toNat + 2)
    [(start, .root start.1 start.2 0 (manhattan start goal))]
    []

/-! ### Specification-side notions for the A* proofs -/

/-- A valid move of the search graph: the target cell is in bounds, not
a shelf, and 4-adjacent (Manhattan distance 1) to the source. -/
def validStep (L : Layout) (a b : Cell) : Prop :=
  inBoundsP L b.1 b.2 ∧ b ∉ L.obstacles ∧ manhattan a b = 1

/-- A walk from `start` along valid moves; the list of visited cells
excludes `start` itself (matching the `findPath` contract). -/
def ValidWalk (L : Layout) (start : Cell) (t : List Cell) : Prop :=
  List.Chain (validStep L) start t

/-- The goal is reachable from the start by some valid walk. -/
def Reachable (L : Layout) (start goal : Cell) : Prop :=
  ∃ t, ValidWalk L start t ∧ t.getLastD start = goal

/-- Well-formedness of a search node's parent chain: the root sits at
`start` with `g = 0`, and every link is a valid move that increments
`g`. -/
def chainOk (L : Layout) (start : Cell) : ANode → Prop
  | .root r c g _ => (r, c) = start ∧ g = 0
  | .node r c g _ p => validStep L p.cell (r, c) ∧ g = p.g + 1 ∧ chainOk L start p

/-- The A* loop invariant. -/
structure AInv (L : Layout) (start goal : Cell)
    (opn : List (Cell × ANode)) (closed : List Cell) : Prop where
  nodupKeys : (opn.map Prod.fst).Nodup
  agree : ∀ kn ∈ opn, kn.2.cell = kn.1 ∧ kn.2.f = kn.2.g + manhattan kn.1 goal ∧
    chainOk L start kn.2 ∧ start ∉ reconstruct kn.2
  disj : ∀ kn ∈ opn, kn.1 ∉ closed
  closedNodup : closed.Nodup
  closedScope : ∀ x ∈ closed, x = start ∨ inBoundsP L x.1 x.2
  openScope : ∀ kn ∈ opn, kn.1 = start ∨ inBoundsP L kn.1.1 kn.1.2
  goalOpen : goal ∉ closed
  startClosed : start ∈ closed ∨ (closed = [] ∧ ∀ kn ∈ opn, kn.1 = start)
  opt : ∀ tail, ValidWalk L start tail → tail.getLastD start ∉ closed →
    ∃ pre mid, tail = pre ++ mid ∧
      (∃ n, (pre.getLastD start, n) ∈ opn ∧ n.g ≤ pre.length) ∧
      ∀ x ∈ mid, x ∉ closed

/-- The in-bounds cells, as a finite set (for the termination budget). -/
def gridFinset (L : Layout) : Finset Cell :=
  ((Finset.range L.rows.toNat) ×ˢ (Finset.range L.cols.toNat)).image
    (fun p => ((p.1 : Int), (p.2 : Int)))

/-- One monotone step towards `b`, for building obstacle-free walks. -/
def stepToward (a b : Cell) : Cell :=
  if a.1 < b.1 then (a.1 + 1, a.2)
  else if b.1 < a.1 then (a.1 - 1, a.2)
  else if a.2 < b.2 then (a.1, a.2 + 1)
  else (a.1, a.2 - 1)

/-- A straight (row-then-column monotone) walk of length
`manhattan a b` from `a` to `b`. -/
def straightGo : Nat → Cell → Cell → List Cell
  | 0, _, _ => []
  | n + 1, a, b => stepToward a b :: straightGo n (stepToward a b) b

instance (L : Layout) (a b : Cell) : Decidable (validStep L a b) :=
  inferInstanceAs (Decidable (inBoundsP L b.1 b.2 ∧ b ∉ L.obstacles ∧ manhattan a b = 1))

instance (L : Layout) (s : Cell) (t : List Cell) : Decidable (ValidWalk L s t) :=
  inferInstanceAs (Decidable (List.Chain (validStep L) s t))

/-- A 1×6 obstacle-free corridor (the spec's `(0,0) → (0,5)` example). -/
def rowLayout : Layout :=
  { rows := 1, cols := 6, obstacles := [], items := [], dock := (0, 0), drop := none }

/-! ## Motion/avoidance controller and episode scheduler (`run`) -/

/-- `WAIT_MAX = 40`: the patience threshold. -/
def WAIT_MAX : Nat := 40

/-- `humanBufferBlocks(r,c)`: some pedestrian within Chebyshev
distance 1 (the 3×3 safety buffer). -/
def humanBufferBlocks (people : List Person) (r c : Int) : Prop :=
  ∃ p ∈ people, (p.pos.1 - r).natAbs ≤ 1 ∧ (p.pos.2 - c).natAbs ≤ 1

instance (people : List Person) (r c : Int) :
    Decidable (humanBufferBlocks people r c) := by
  unfold humanBufferBlocks; infer_instance

/-- The scheduler phases (`"idle" | "picking" | "drop" | "return"`). -/
inductive Phase where
  | idle
  | picking
  | drop
  | ret
deriving DecidableEq

/-- The mutable simulation state of `run()` (the `state` object plus
the module-level `currentPath`, `waitTicks`, `peopleTick`,
`episodeReward` variables, and `running` for the live tick timer). -/
structure SimState where
  bot : Cell
  dock : Cell
  drop : Option Cell
  orderLabels : List String
  orderCoords : List Cell
  picked : List (Cell × String)
  people : List Person
  time : Nat
  pathLen : Nat
  safetyPauseTicks : Nat
  delivered : Bool
  phase : Phase
  currentPath : List Cell
  waitTicks : Nat
  peopleTick : Nat
  episodeReward : ℚ
  running : Bool

/-- Step 2 of the tick: the active target and phase, a pure function of
the current state (first pending stop / drop when undelivered and
configured / dock). -/
def deriveTarget (st : SimState) : Cell × Phase :=
  match st.orderCoords with
  | t :: _ => (t, Phase.picking)
  | [] =>
    if ¬ st.delivered then
      match st.drop with
      | some dc => (dc, Phase.drop)
      | none => (st.dock, Phase.ret)
    else (st.dock, Phase.ret)

/-- `targetChanged`: the cached path is empty or does not end at the
target. -/
def targetChangedB (st : SimState) (target : Cell) : Bool :=
  match st.currentPath.getLast? with
  | none => true
  | some e => decide (e ≠ target)

/-- The defensive stale-cache check on the first queued step. -/
def staleStepB (L : Layout) (st : SimState) : Bool :=
  match st.currentPath.head? with
  | none => false
  | some s => decide (¬ inBoundsP L s.1 s.2 ∨ isBlockedByShelves L s)

def mustReplanB (L : Layout) (st : SimState) (target : Cell) : Bool :=
  (st.currentPath.isEmpty || targetChangedB st target) ||
    (!st.currentPath.isEmpty && staleStepB L st)

/-- Step 5 of the tick: arrival handling at the target cell. -/
def applyArrival (st : SimState) (target : Cell) : SimState :=
  match st.phase with
  | Phase.picking =>
    if st.orderCoords.tail = [] then
      { st with
        picked := st.picked ++ [(target, st.orderLabels.headD "")]
        orderCoords := st.orderCoords.tail
        orderLabels := st.orderLabels.tail
        currentPath := []
        waitTicks := 0
        episodeReward := st.episodeReward + 20
        delivered := false }
    else
      { st with
        picked := st.picked ++ [(target, st.orderLabels.headD "")]
        orderCoords := st.orderCoords.tail
        orderLabels := st.orderLabels.tail
        currentPath := []
        waitTicks := 0
        episodeReward := st.episodeReward + 20 }
  | Phase.drop =>
    { st with
        delivered := true
        currentPath := []
        waitTicks := 0
        episodeReward := st.episodeReward + 30 }
  | _ => st

/-- Arrival fires exactly when the new bot cell is the target. -/
def applyArrivalIf (st : SimState) (target nrc : Cell) : SimState :=
  if nrc = target then applyArrival st target else st

/-- Move the bot to `nrc` (penalising an actual move), advance the
clock, cache `newPath`, and handle arrival. -/
def moveStep (st : SimState) (target nrc : Cell) (newPath : List Cell) : SimState :=
  applyArrivalIf
    { st with
      pathLen := if nrc ≠ st.bot then st.pathLen + 1 else st.pathLen
      episodeReward := if nrc ≠ st.bot then st.episodeReward - 1 else st.episodeReward
      bot := nrc
      time := st.time + 1
      currentPath := newPath }
    target nrc

/-- The patience cap: at `WAIT_MAX` consecutive blocked ticks, replan. -/
def tickWaitCap (L : Layout) (st3 : SimState) (target : Cell) : SimState :=
  if WAIT_MAX ≤ st3.waitTicks then
    { st3 with currentPath := astarStatic L st3.bot target, waitTicks := 0 }
  else st3

/-- Steps 4–6 on the (possibly re-planned) cached path: wait when the
first queued cell is inside a pedestrian safety buffer (forcing a fresh
plan once the patience threshold is hit), otherwise pop it and move. -/
def tickMove (L : Layout) (st2 : SimState) (target : Cell) : SimState :=
  match st2.currentPath with
  | step :: rest =>
    if humanBufferBlocks st2.people step.1 step.2 then
      tickWaitCap L
        { st2 with
          waitTicks := st2.waitTicks + 1
          time := st2.time + 1
          safetyPauseTicks := st2.safetyPauseTicks + 1
          episodeReward := st2.episodeReward - (1/2 : ℚ) }
        target
    else moveStep st2 target step rest
  | [] => moveStep st2 target st2.bot []

/-- Step 4, the replan decision: on `mustReplan`, cache a fresh
shelves-only A* plan and reset the patience counter. -/
def tickReplanOf (L : Layout) (st1 : SimState) (target : Cell) : SimState :=
  if mustReplanB L st1 target
  then { st1 with currentPath := astarStatic L st1.bot target, waitTicks := 0 }
  else st1

/-- Steps 3–6: finish when docked and delivered, else replan/wait/move. -/
def tickPlan (L : Layout) (st1 : SimState) (target : Cell) : SimState :=
  if st1.phase = Phase.ret ∧ st1.bot = st1.dock ∧ st1.delivered then
    { st1 with
        phase := Phase.idle
        running := false
        episodeReward := st1.episodeReward + 10 }
  else
    tickMove L (tickReplanOf L st1 target) target

/-- Step 1: pedestrians advance on the half-speed sub-clock. -/
def peopleUpd (L : Layout) (rb : Nat → Bool) (rd : Nat → Cell)
    (st : SimState) : SimState :=
  { st with
    peopleTick := st.peopleTick + 1
    people := if (st.peopleTick + 1) % 2 = 0
      then stepPeople L st.bot rb rd st.people else st.people }

/-- The tick body after the pedestrian sub-step. -/
def tickCore (L : Layout) (st0 : SimState) : SimState :=
  tickPlan L { st0 with phase := (deriveTarget st0).2 } (deriveTarget st0).1

/-- One timer tick of `run()`. -/
def tick (L : Layout) (rb : Nat → Bool) (rd : Nat → Cell) (st : SimState) : SimState :=
  tickCore L (peopleUpd L rb rd st)

/-- The controller state at the moment of the safety-buffer check:
pedestrians stepped, phase re-derived, replan decision applied. -/
def tickReplanState (L : Layout) (rb : Nat → Bool) (rd : Nat → Cell)
    (st : SimState) : SimState :=
  tickReplanOf L
    { peopleUpd L rb rd st with phase := (deriveTarget (peopleUpd L rb rd st)).2 }
    (deriveTarget (peopleUpd L rb rd st)).1

/-- Iterated ticks while the timer is live (`clearInterval` stops it). -/
def runN (L : Layout) (orc : Nat → (Nat → Bool) × (Nat → Cell)) :
    Nat → SimState → SimState
  | 0, st => st
  | n + 1, st =>
    if st.running then runN L orc n (tick L (orc n).1 (orc n).2 st) else st

/-- A concrete simulation state: bot docked, delivered, returning. -/
def doneState : SimState :=
  { bot := (0, 0)
    dock := (0, 0)
    drop := none
    orderLabels := []
    orderCoords := []
    picked := []
    people := []
    time := 7
    pathLen := 4
    safetyPauseTicks := 0
    delivered := true
    phase := Phase.ret
    currentPath := []
    waitTicks := 0
    peopleTick := 0
    episodeReward := 0
    running := true }

/-- A concrete simulation state about to wait: the only queued step is
covered by a pedestrian's safety buffer. -/
def waitState : SimState :=
  { bot := (0, 0)
    dock := (0, 0)
    drop := none
    orderLabels := ["A"]
    orderCoords := [(0, 2)]
    picked := []
    people := [{ pos := (0, 1), dir := (1, 0) }]
    time := 0
    pathLen := 0
    safetyPauseTicks := 0
    delivered := false
    phase := Phase.picking
    currentPath := [(0, 1), (0, 2)]
    waitTicks := 0
    peopleTick := 0
    episodeReward := 0
    running := true }

/-- The reward audit: the accumulated scalar reward decomposed into its
per-event contributions, read off the observable counters. -/
def Aud (st : SimState) : Prop :=
  st.episodeReward =
    20 * (st.picked.length : ℚ) +
    (if st.delivered then (30 : ℚ) else 0) +
    (if st.phase = Phase.idle then (10 : ℚ) else 0) -
    (st.pathLen : ℚ) - (1/2 : ℚ) * (st.safetyPauseTicks : ℚ)

/-- The reward-accounting invariant maintained by every tick from a
fresh episode start. -/
def Good8 (st : SimState) : Prop :=
  Aud st ∧
  (st.delivered = true → st.orderCoords = []) ∧
  (st.phase = Phase.idle → st.delivered = true) ∧
  (st.running = true → st.phase ≠ Phase.idle)

section NNLemmas

/-- `findBest` scans every remaining label: one missing key fails the
whole scan. -/
theorem findBest_none_of_missing (itemMap : String → Option Cell) (cur : Cell) :
    ∀ (rest : List String) (i : Nat) (best : Option (Nat × Nat)),
      (∃ l ∈ rest, itemMap l = none) → findBest itemMap cur rest i best = none := by
  intro rest
  induction rest with
  | nil => intro i best h; rcases h with ⟨l, hl, _⟩; cases hl
  | cons a t ih =>
    intro i best h
    rcases h with ⟨l, hl, hnone⟩
    rcases List.mem_cons.mp hl with rfl | hmem
    · simp [findBest, hnone]
    · cases ha : itemMap a with
      | none => simp [findBest, ha]
      | some cell => simp [findBest, ha]; exact ih _ _ ⟨l, hmem, hnone⟩

/-- `findBest` succeeds and returns an in-range index when every lookup
succeeds. -/
theorem findBest_some_of_total (itemMap : String → Option Cell) (cur : Cell) :
    ∀ (rest : List String) (i : Nat) (best : Option (Nat × Nat)),
      (∀ l ∈ rest, (itemMap l).isSome) →
      (∀ bi bd, best = some (bi, bd) → bi < i) →
      ∃ b, findBest itemMap cur rest i best = some b ∧
        (∀ bi bd, b = some (bi, bd) → bi < i + rest.length) ∧
        (b = none → best = none ∧ rest = []) := by
  intro rest
  induction rest with
  | nil =>
    intro i best htot hacc
    refine ⟨best, rfl, ?_, fun h => ⟨h, rfl⟩⟩
    intro bi bd hb; simpa using hacc bi bd hb
  | cons a t ih =>
    intro i best htot hacc
    have ha : (itemMap a).isSome := htot a (List.mem_cons_self a t)
    cases haeq : itemMap a with
    | none => rw [haeq] at ha; simp at ha
    | some cell =>
      have htot' : ∀ l ∈ t, (itemMap l).isSome := fun l hl => htot l (List.mem_cons_of_mem a hl)
      cases best with
      | none =>
        simp only [findBest, haeq, if_true]
        obtain ⟨b, heq, hrange, hnone⟩ := ih (i + 1) (some (i, manhattan cur cell)) htot'
          (by intro bi bd hb; simp at hb; omega)
        refine ⟨b, heq, ?_, ?_⟩
        · intro bi bd hb
          have := hrange bi bd hb
          simp only [List.length_cons]; omega
        · intro hb; exact absurd (hnone hb).1 (by simp)
      | some p =>
        obtain ⟨bi0, bd0⟩ := p
        simp only [findBest, haeq]
        by_cases hlt : manhattan cur cell < bd0
        · rw [if_pos (by simpa using hlt)]
          obtain ⟨b, heq, hrange, hnone⟩ := ih (i + 1) (some (i, manhattan cur cell)) htot'
            (by intro bi bd hb; simp at hb; omega)
          refine ⟨b, heq, ?_, ?_⟩
          · intro bi bd hb
            have := hrange bi bd hb
            simp only [List.length_cons]; omega
          · intro hb; exact absurd (hnone hb).1 (by simp)
        · rw [if_neg (by simpa using hlt)]
          obtain ⟨b, heq, hrange, hnone⟩ := ih (i + 1) (some (bi0, bd0)) htot'
            (by intro bi bd hb; simp at hb
                exact Nat.lt_succ_of_lt (hacc bi bd (by simp [hb.1, hb.2])))
          refine ⟨b, heq, ?_, ?_⟩
          · intro bi bd hb
            have := hrange bi bd hb
            simp only [List.length_cons]; omega
          · intro hb; exact absurd (hnone hb).1 (by simp)

/-- An element pulled out by index, consed onto the remainder, is a
permutation of the original list. -/
theorem cons_eraseIdx_perm (l : List α) (idx : Nat) (x : α)
    (hx : l[idx]? = some x) : (x :: l.eraseIdx idx).Perm l := by
  induction l generalizing idx with
  | nil => simp at hx
  | cons a t ih =>
    cases idx with
    | zero =>
      simp at hx; subst hx; simp [List.eraseIdx]
    | succ k =>
      simp only [List.getElem?_cons_succ] at hx
      simp only [List.eraseIdx_cons_succ]
      exact (List.Perm.swap a x _).trans (List.Perm.cons a (ih k hx))

theorem nnLoop_perm (itemMap : String → Option Cell) :
    ∀ (fuel : Nat) (cur : Cell) (remaining out : List String),
      nnLoop itemMap fuel cur remaining = some out → out.Perm remaining := by
  intro fuel
  induction fuel with
  | zero =>
    intro cur remaining out h
    simp only [nnLoop] at h
    split at h
    · rename_i he; cases h; subst he; simp
    · cases h
  | succ n ih =>
    intro cur remaining out h
    simp only [nnLoop] at h
    split at h
    · rename_i he; cases h; subst he; simp
    · rename_i hne
      split at h
      · cases h
      · cases h
      · rename_i idx d hfb
        split at h
        · cases h
        · rename_i lbl hget
          split at h
          · cases h
          · rename_i cell hcell
            rw [Option.map_eq_some'] at h
            obtain ⟨out', hrec, rfl⟩ := h
            exact (List.Perm.cons lbl (ih _ _ _ hrec)).trans
              (cons_eraseIdx_perm _ _ _ hget)

/-- When every label resolves to a cell, the nearest-neighbor loop
succeeds (the `while` loop drains `remaining` completely). -/
theorem nnLoop_some (itemMap : String → Option Cell) :
    ∀ (fuel : Nat) (cur : Cell) (remaining : List String),
      fuel = remaining.length →
      (∀ l ∈ remaining, (itemMap l).isSome) →
      ∃ out, nnLoop itemMap fuel cur remaining = some out := by
  intro fuel
  induction fuel with
  | zero =>
    intro cur remaining hlen _
    have : remaining = [] := List.eq_nil_of_length_eq_zero hlen.symm
    exact ⟨[], by simp [nnLoop, this]⟩
  | succ n ih =>
    intro cur remaining hlen htot
    have hne : remaining ≠ [] := by
      intro h; rw [h] at hlen; simp at hlen
    obtain ⟨b, hfb, hrange, hnone⟩ :=
      findBest_some_of_total itemMap cur remaining 0 none htot (by simp)
    cases b with
    | none => exact absurd (hnone rfl).2 hne
    | some p =>
      obtain ⟨idx, d⟩ := p
      have hidx : idx < remaining.length := by simpa using hrange idx d rfl
      have hget : remaining[idx]? = some remaining[idx] := List.getElem?_eq_getElem hidx
      have hmem : remaining[idx] ∈ remaining := List.getElem_mem hidx
      have hcell := htot _ hmem
      cases hcelleq : itemMap remaining[idx] with
      | none => rw [hcelleq] at hcell; simp at hcell
      | some cell =>
        have hlen' : n = (remaining.eraseIdx idx).length := by
          rw [List.length_eraseIdx_of_lt hidx]; omega
        have htot' : ∀ l ∈ remaining.eraseIdx idx, (itemMap l).isSome :=
          fun l hl => htot l (List.eraseIdx_sublist remaining idx |>.mem hl)
        obtain ⟨out', hrec⟩ := ih cell (remaining.eraseIdx idx) hlen' htot'
        refine ⟨remaining[idx] :: out', ?_⟩
        simp only [nnLoop, if_neg hne, hfb, hget, hcelleq, hrec, Option.map_some']

end NNLemmas

section PathLenLemmas

theorem manhattan_comm (a b : Cell) : manhattan a b = manhattan b a := by
  unfold manhattan; omega

theorem manhattan_triangle (a b c : Cell) :
    manhattan a c ≤ manhattan a b + manhattan b c := by
  unfold manhattan; omega

theorem pathLen_append_cons (xs : List Cell) (y : Cell) (ys : List Cell) :
    pathLen (xs ++ y :: ys) = pathLen (xs ++ [y]) + pathLen (y :: ys) := by
  induction xs with
  | nil => cases ys <;> simp [pathLen]
  | cons x xs0 ih =>
    cases xs0 with
    | nil => cases ys <;> simp [pathLen]
    | cons x2 xs1 =>
      simp only [List.cons_append]
      have h1 : pathLen (x :: x2 :: (xs1 ++ y :: ys))
          = manhattan x x2 + pathLen (x2 :: (xs1 ++ y :: ys)) := rfl
      have h2 : pathLen (x :: x2 :: (xs1 ++ [y]))
          = manhattan x x2 + pathLen (x2 :: (xs1 ++ [y])) := rfl
      rw [h1, h2]
      have ih' := ih
      simp only [List.cons_append] at ih'
      rw [ih']
      ring

theorem pathLen_concat_pair (xs : List Cell) (y z : Cell) :
    pathLen (xs ++ [y, z]) = pathLen (xs ++ [y]) + manhattan y z := by
  have := pathLen_append_cons xs y [z]
  simpa [pathLen] using this

theorem pathLen_reverse (l : List Cell) : pathLen l.reverse = pathLen l := by
  induction l with
  | nil => rfl
  | cons x l0 ih =>
    cases l0 with
    | nil => rfl
    | cons y l1 =>
      have hrev : (x :: y :: l1).reverse = (y :: l1).reverse ++ [x] := by simp
      have hrev2 : (y :: l1).reverse ++ [x] = l1.reverse ++ [y, x] := by simp
      rw [hrev, hrev2, pathLen_concat_pair, ← List.reverse_cons, ih,
        manhattan_comm]
      have : pathLen (x :: y :: l1) = manhattan x y + pathLen (y :: l1) := rfl
      rw [this]
      ring

/-- Core edge-swap accounting: reversing the inner segment exchanges the
two boundary edges and preserves all interior edge lengths. -/
theorem pathLen_swap_core (a b : Cell) (M : List Cell) (c d : Cell) (R : List Cell) :
    pathLen (a :: c :: (M.reverse ++ b :: d :: R)) + (manhattan a b + manhattan c d)
      = pathLen (a :: b :: (M ++ c :: d :: R)) + (manhattan a c + manhattan b d) := by
  have hL : pathLen (a :: b :: (M ++ c :: d :: R))
      = manhattan a b + (pathLen (b :: (M ++ [c])) + (manhattan c d + pathLen (d :: R))) := by
    have h1 : pathLen (a :: b :: (M ++ c :: d :: R))
        = manhattan a b + pathLen (b :: (M ++ c :: d :: R)) := rfl
    have h2 : pathLen ((b :: M) ++ c :: (d :: R))
        = pathLen ((b :: M) ++ [c]) + pathLen (c :: d :: R) := pathLen_append_cons _ _ _
    have h3 : pathLen (c :: d :: R) = manhattan c d + pathLen (d :: R) := rfl
    simp only [List.cons_append] at h2
    rw [h1, h2, h3]
  have hR : pathLen (a :: c :: (M.reverse ++ b :: d :: R))
      = manhattan a c + (pathLen (c :: (M.reverse ++ [b])) + (manhattan b d + pathLen (d :: R))) := by
    have h1 : pathLen (a :: c :: (M.reverse ++ b :: d :: R))
        = manhattan a c + pathLen (c :: (M.reverse ++ b :: d :: R)) := rfl
    have h2 : pathLen ((c :: M.reverse) ++ b :: (d :: R))
        = pathLen ((c :: M.reverse) ++ [b]) + pathLen (b :: d :: R) := pathLen_append_cons _ _ _
    have h3 : pathLen (b :: d :: R) = manhattan b d + pathLen (d :: R) := rfl
    simp only [List.cons_append] at h2
    rw [h1, h2, h3]
  have hseg : pathLen (c :: (M.reverse ++ [b])) = pathLen (b :: (M ++ [c])) := by
    have hrv : (b :: (M ++ [c])).reverse = c :: (M.reverse ++ [b]) := by simp
    rw [← hrv, pathLen_reverse]
  rw [hL, hR, hseg]
  ring

/-- Prepending a common prefix up to `a` to both arrangements. -/
theorem pathLen_swap (P : List Cell) (a b : Cell) (M : List Cell) (c d : Cell) (R : List Cell) :
    pathLen (P ++ a :: c :: (M.reverse ++ b :: d :: R)) + (manhattan a b + manhattan c d)
      = pathLen (P ++ a :: b :: (M ++ c :: d :: R)) + (manhattan a c + manhattan b d) := by
  have h1 : pathLen (P ++ a :: (c :: (M.reverse ++ b :: d :: R)))
      = pathLen (P ++ [a]) + pathLen (a :: c :: (M.reverse ++ b :: d :: R)) :=
    pathLen_append_cons _ _ _
  have h2 : pathLen (P ++ a :: (b :: (M ++ c :: d :: R)))
      = pathLen (P ++ [a]) + pathLen (a :: b :: (M ++ c :: d :: R)) :=
    pathLen_append_cons _ _ _
  have hcore := pathLen_swap_core a b M c d R
  rw [h1, h2]
  omega

end PathLenLemmas

section ReverseSegmentLemmas

theorem reverseSegment_perm (l : List α) (i j : Nat) (h : i ≤ j + 1) :
    (reverseSegment l i j).Perm l := by
  unfold reverseSegment
  rw [List.append_assoc]
  conv_rhs => rw [← List.take_append_drop i l]
  refine List.Perm.append_left _ ?_
  have hdrop : l.drop (j + 1) = (l.drop i).drop (j + 1 - i) := by
    rw [List.drop_drop]
    have : i + (j + 1 - i) = j + 1 := by omega
    rw [this]
  rw [hdrop]
  conv_rhs => rw [← List.take_append_drop (j + 1 - i) (l.drop i)]
  exact List.Perm.append (List.reverse_perm _) (List.Perm.refl _)

theorem reverseSegment_cons (x : α) (l : List α) (i j : Nat) (hi : 1 ≤ i) (hj : 1 ≤ j) :
    reverseSegment (x :: l) i j = x :: reverseSegment l (i - 1) (j - 1) := by
  unfold reverseSegment
  obtain ⟨i0, rfl⟩ : ∃ i0, i = i0 + 1 := ⟨i - 1, by omega⟩
  obtain ⟨j0, rfl⟩ : ∃ j0, j = j0 + 1 := ⟨j - 1, by omega⟩
  have harg : j0 + 1 + 1 - (i0 + 1) = j0 + 1 - i0 := by omega
  simp only [List.take_succ_cons, List.drop_succ_cons, List.cons_append,
    Nat.add_sub_cancel, harg]

theorem reverseSegment_map (f : α → β) (l : List α) (i j : Nat) :
    reverseSegment (l.map f) i j = (reverseSegment l i j).map f := by
  unfold reverseSegment
  simp [List.map_take, List.map_drop, List.map_reverse]

/-- Decomposition of a list and its reversed segment around in-range
indices `i-1 < i < j < j+1`. -/
theorem reverseSegment_decomp (l : List Cell) (i j : Nat)
    (h1 : 1 ≤ i) (hij : i < j) (hj : j + 1 < l.length) :
    ∃ P M R,
      l = P ++ l.getD (i-1) (0,0) :: l.getD i (0,0) :: M ++
            l.getD j (0,0) :: l.getD (j+1) (0,0) :: R ∧
      reverseSegment l i j = P ++ l.getD (i-1) (0,0) :: l.getD j (0,0) :: M.reverse ++
            l.getD i (0,0) :: l.getD (j+1) (0,0) :: R := by
  set a := l.getD (i-1) (0,0) with ha
  set b := l.getD i (0,0) with hb
  set c := l.getD j (0,0) with hc
  set d := l.getD (j+1) (0,0) with hd
  have him : i - 1 < l.length := by omega
  have hi : i < l.length := by omega
  have hjl : j < l.length := by omega
  have hj1 : j + 1 < l.length := hj
  refine ⟨l.take (i-1), (l.drop (i+1)).take (j-i-1), l.drop (j+2), ?_, ?_⟩
  · -- the plain decomposition
    have e1 : l.drop (i-1) = a :: l.drop i := by
      have hstep : i - 1 + 1 = i := by omega
      rw [List.drop_eq_getElem_cons him, hstep, ha, List.getD_eq_getElem _ _ him]
    have e2 : l.drop i = b :: l.drop (i+1) := by
      rw [List.drop_eq_getElem_cons hi, hb, List.getD_eq_getElem _ _ hi]
    have e3 : l.drop (i+1) = (l.drop (i+1)).take (j-i-1) ++ l.drop j := by
      conv_lhs => rw [← List.take_append_drop (j-i-1) (l.drop (i+1))]
      rw [List.drop_drop]
      have harg : i + 1 + (j - i - 1) = j := by omega
      rw [harg]
    have e4 : l.drop j = c :: l.drop (j+1) := by
      rw [List.drop_eq_getElem_cons hjl, hc, List.getD_eq_getElem _ _ hjl]
    have e5 : l.drop (j+1) = d :: l.drop (j+2) := by
      rw [List.drop_eq_getElem_cons hj1, hd, List.getD_eq_getElem _ _ hj1]
    conv_lhs => rw [← List.take_append_drop (i-1) l, e1, e2, e3, e4, e5]
    simp
  · -- the reversed-segment decomposition
    have hM : ((l.drop (i+1)).take (j-i-1)).length = j - i - 1 := by
      rw [List.length_take, List.length_drop]
      omega
    have e2 : l.drop i = b :: l.drop (i+1) := by
      rw [List.drop_eq_getElem_cons hi, hb, List.getD_eq_getElem _ _ hi]
    have e3 : l.drop (i+1) = (l.drop (i+1)).take (j-i-1) ++ l.drop j := by
      conv_lhs => rw [← List.take_append_drop (j-i-1) (l.drop (i+1))]
      rw [List.drop_drop]
      have harg : i + 1 + (j - i - 1) = j := by omega
      rw [harg]
    have e4 : l.drop j = c :: l.drop (j+1) := by
      rw [List.drop_eq_getElem_cons hjl, hc, List.getD_eq_getElem _ _ hjl]
    have e5 : l.drop (j+1) = d :: l.drop (j+2) := by
      rw [List.drop_eq_getElem_cons hj1, hd, List.getD_eq_getElem _ _ hj1]
    have etake : l.take i = l.take (i-1) ++ [a] := by
      obtain ⟨i0, rfl⟩ : ∃ i0, i = i0 + 1 := ⟨i - 1, by omega⟩
      have him0 : i0 < l.length := by omega
      rw [List.take_succ, List.getElem?_eq_getElem him0]
      have haa : a = l[i0] := by
        rw [ha]
        have hred : i0 + 1 - 1 = i0 := by omega
        rw [hred, List.getD_eq_getElem _ _ him0]
      rw [haa]
      rfl
    have eseg : (l.drop i).take (j + 1 - i)
        = b :: ((l.drop (i+1)).take (j-i-1) ++ [c]) := by
      rw [e2]
      have hc1 : j + 1 - i = (j - i - 1 + 1) + 1 := by omega
      rw [hc1, List.take_succ_cons]
      congr 1
      conv_lhs => rw [e3, e4]
      have hc2 : j - i - 1 + 1 = ((l.drop (i+1)).take (j-i-1)).length + 1 := by rw [hM]
      rw [hc2, List.take_append]
      simp
    unfold reverseSegment
    rw [etake, eseg, e5]
    simp
end ReverseSegmentLemmas

section TwoOptLemmas

/-- Fold-preservation principle used for the nested 2-opt `for` loops. -/
theorem foldl_induction {σ β : Type} (P : σ → Prop) (f : σ → β → σ) :
    ∀ (l : List β) (s : σ), P s → (∀ s b, b ∈ l → P s → P (f s b)) →
      P (l.foldl f s) := by
  intro l
  induction l with
  | nil => intro s hs _; exact hs
  | cons b t ih =>
    intro s hs hstep
    exact ih (f s b)
      (hstep s b (List.mem_cons_self b t) hs)
      (fun s' b' hb' => hstep s' b' (List.mem_cons_of_mem b hb'))

theorem TwoOptGood.path_length {itemMap start labels0 st}
    (h : TwoOptGood itemMap start labels0 st) :
    st.path.length = labels0.length + 1 := by
  obtain ⟨hperm, hpar, _⟩ := h
  rw [hpar]
  simp [hperm.length_eq]

/-- An accepted 2-opt reversal at in-range indices strictly decreases
the total path length (the edge-swap accounting). -/
theorem twoOptStep_strict_decrease (st : TwoOptSt) (i j : Nat)
    (h1 : 1 ≤ i) (hij : i < j) (hj : j + 1 < st.path.length)
    (hacc : manhattan (st.path.getD (i-1) (0,0)) (st.path.getD j (0,0)) +
            manhattan (st.path.getD i (0,0)) (st.path.getD (j+1) (0,0)) <
            manhattan (st.path.getD (i-1) (0,0)) (st.path.getD i (0,0)) +
            manhattan (st.path.getD j (0,0)) (st.path.getD (j+1) (0,0))) :
    pathLen (twoOptStep st i j).path < pathLen st.path := by
  obtain ⟨P, M, R, hdec, hrev⟩ := reverseSegment_decomp st.path i j h1 hij hj
  simp only [List.cons_append, List.append_assoc] at hdec hrev
  have hstep : (twoOptStep st i j).path = reverseSegment st.path i j := by
    unfold twoOptStep
    rw [if_pos hacc]
  have hswap := pathLen_swap P (st.path.getD (i-1) (0,0)) (st.path.getD i (0,0)) M
    (st.path.getD j (0,0)) (st.path.getD (j+1) (0,0)) R
  rw [hstep, hrev]
  conv_rhs => rw [hdec]
  omega

/-- One `twoOptStep` preserves the 2-opt loop invariant. -/
theorem twoOptStep_good (itemMap : String → Option Cell) (start : Cell)
    (labels0 : List String) (st : TwoOptSt) (i j : Nat)
    (h1 : 1 ≤ i) (hij : i < j) (hj : j + 1 < st.path.length)
    (hg : TwoOptGood itemMap start labels0 st) :
    TwoOptGood itemMap start labels0 (twoOptStep st i j) := by
  obtain ⟨hperm, hpar, hle⟩ := hg
  unfold twoOptStep
  by_cases hacc : manhattan (st.path.getD (i-1) (0,0)) (st.path.getD j (0,0)) +
      manhattan (st.path.getD i (0,0)) (st.path.getD (j+1) (0,0)) <
      manhattan (st.path.getD (i-1) (0,0)) (st.path.getD i (0,0)) +
      manhattan (st.path.getD j (0,0)) (st.path.getD (j+1) (0,0))
  · rw [if_pos hacc]
    refine ⟨?_, ?_, ?_⟩
    · show (reverseSegment st.labels (i-1) (j-1)).Perm labels0
      exact (reverseSegment_perm st.labels (i-1) (j-1) (by omega)).trans hperm
    · show reverseSegment st.path i j
        = start :: (reverseSegment st.labels (i-1) (j-1)).map (cellOf itemMap)
      rw [hpar, reverseSegment_cons _ _ _ _ h1 (by omega), reverseSegment_map]
    · show pathLen (reverseSegment st.path i j)
        ≤ pathLen (start :: labels0.map (cellOf itemMap))
      have hstrict := twoOptStep_strict_decrease st i j h1 hij hj hacc
      have hstep : (twoOptStep st i j).path = reverseSegment st.path i j := by
        unfold twoOptStep
        rw [if_pos hacc]
      rw [hstep] at hstrict
      omega
  · rw [if_neg hacc]
    exact ⟨hperm, hpar, hle⟩

/-- A full 2-opt pass preserves the invariant.  The `len` argument is
the invariant path length, matching the caller's use. -/
theorem twoOptPass_good (itemMap : String → Option Cell) (start : Cell)
    (labels0 : List String) (st : TwoOptSt)
    (hg : TwoOptGood itemMap start labels0 st) :
    TwoOptGood itemMap start labels0 (twoOptPass (labels0.length + 1) st) := by
  unfold twoOptPass
  set len := labels0.length + 1 with hlen
  refine foldl_induction _ _ _ st hg ?_
  intro s i hi hs
  rw [List.mem_range'_1] at hi
  refine foldl_induction _ _ _ s hs ?_
  intro s2 j hj hs2
  rw [List.mem_range'_1] at hj
  have hlen2 : s2.path.length = len := hs2.path_length
  refine twoOptStep_good itemMap start labels0 s2 i j ?_ ?_ ?_ hs2
  · omega
  · omega
  · omega

/-- The fuelled improvement loop preserves the invariant. -/
theorem twoOptLoop_good (itemMap : String → Option Cell) (start : Cell)
    (labels0 : List String) :
    ∀ (g : Nat) (st : TwoOptSt), TwoOptGood itemMap start labels0 st →
      TwoOptGood itemMap start labels0 (twoOptLoop (labels0.length + 1) g st) := by
  intro g
  induction g with
  | zero => intro st hg; exact hg
  | succ n ih =>
    intro st hg
    have hg' : TwoOptGood itemMap start labels0 { st with improved := false } := hg
    have hpass := twoOptPass_good itemMap start labels0 _ hg'
    show TwoOptGood itemMap start labels0
      (if (twoOptPass (labels0.length + 1) { st with improved := false }).improved
       then twoOptLoop (labels0.length + 1) n
         (twoOptPass (labels0.length + 1) { st with improved := false })
       else twoOptPass (labels0.length + 1) { st with improved := false })
    split
    · exact ih _ hpass
    · exact hpass

/-- Unfolding equation for `twoOptImprove`. -/
theorem twoOptImprove_eq (order : List String) (itemMap : String → Option Cell)
    (start : Cell) :
    twoOptImprove order itemMap start =
      (twoOptLoop (order.length + 1) 40
        { path := start :: order.map (cellOf itemMap), labels := order,
          improved := true }).labels := by
  unfold twoOptImprove
  simp

/-- The invariant at the result of `twoOptImprove`. -/
theorem twoOptImprove_good (order : List String) (itemMap : String → Option Cell)
    (start : Cell) :
    (twoOptImprove order itemMap start).Perm order ∧
    tourLen itemMap start (twoOptImprove order itemMap start) ≤
      tourLen itemMap start order := by
  have h0 : TwoOptGood itemMap start order
      { path := start :: order.map (cellOf itemMap), labels := order,
        improved := true } :=
    ⟨List.Perm.refl _, rfl, Nat.le_refl _⟩
  have hres := twoOptLoop_good itemMap start order 40 _ h0
  obtain ⟨hperm, hpar, hle⟩ := hres
  rw [twoOptImprove_eq]
  refine ⟨hperm, ?_⟩
  unfold tourLen
  rw [← hpar]
  exact hle

end TwoOptLemmas

/-- C1: for every non-empty list of labels and every item map containing
all of them, nearest-neighbor construction succeeds and its 2-opt
refinement is a permutation of exactly the input labels (no label
duplicated, none missing). -/
theorem claim_C1_route_is_permutation (labels : List String)
    (itemMap : String → Option Cell) (start : Cell)
    (_hne : labels ≠ []) (htot : ∀ l ∈ labels, (itemMap l).isSome) :
    ∃ nn, orderByNearestNeighbor labels itemMap start = some nn ∧
      (twoOptImprove nn itemMap start).Perm labels := by
  obtain ⟨nn, hnn⟩ := nnLoop_some itemMap labels.length start labels rfl htot
  exact ⟨nn, hnn,
    (twoOptImprove_good nn itemMap start).1.trans (nnLoop_perm itemMap _ _ _ _ hnn)⟩

/-- Witness for C1 at a concrete shipment. -/
theorem claim_C1_route_is_permutation_witness :
    ∃ nn, orderByNearestNeighbor ["A", "B"] sampleItemMap (0, 0) = some nn ∧
      (twoOptImprove nn sampleItemMap (0, 0)).Perm ["A", "B"] :=
  claim_C1_route_is_permutation ["A", "B"] sampleItemMap (0, 0)
    (by decide) (by decide)

/-- C3: the total Manhattan tour length of the output of `twoOptImprove`
is at most the tour length of its input order, and every accepted 2-opt
reversal (one whose reversed edge arrangement is strictly cheaper)
strictly decreases the total path length. -/
theorem claim_C3_twoOpt_monotone :
    (∀ (order : List String) (itemMap : String → Option Cell) (start : Cell),
      tourLen itemMap start (twoOptImprove order itemMap start) ≤
        tourLen itemMap start order) ∧
    (∀ (st : TwoOptSt) (i j : Nat), 1 ≤ i → i < j → j + 1 < st.path.length →
      manhattan (st.path.getD (i-1) (0,0)) (st.path.getD j (0,0)) +
        manhattan (st.path.getD i (0,0)) (st.path.getD (j+1) (0,0)) <
      manhattan (st.path.getD (i-1) (0,0)) (st.path.getD i (0,0)) +
        manhattan (st.path.getD j (0,0)) (st.path.getD (j+1) (0,0)) →
      pathLen (twoOptStep st i j).path < pathLen st.path) :=
  ⟨fun order itemMap start => (twoOptImprove_good order itemMap start).2,
   fun st i j h1 hij hj hacc => twoOptStep_strict_decrease st i j h1 hij hj hacc⟩

/-- Witness for C3: the monotone bound at a concrete order, and a
concrete accepted reversal that strictly decreases the path length. -/
theorem claim_C3_twoOpt_monotone_witness :
    tourLen sampleItemMap (0, 0) (twoOptImprove ["B", "A"] sampleItemMap (0, 0)) ≤
      tourLen sampleItemMap (0, 0) ["B", "A"] ∧
    pathLen (twoOptStep sampleTwoOptSt 1 2).path < pathLen sampleTwoOptSt.path :=
  ⟨claim_C3_twoOpt_monotone.1 ["B", "A"] sampleItemMap (0, 0),
   claim_C3_twoOpt_monotone.2 sampleTwoOptSt 1 2 (by decide) (by decide)
     (by decide) (by decide)⟩

/-- C4: if some label in the submitted shipment does not exist as a key
in the item map, route planning fails (the lookup failure aborts the
whole nearest-neighbor scan) and produces no partial result. -/
theorem claim_C4_invalid_label_fails (labels : List String)
    (itemMap : String → Option Cell) (start : Cell)
    (hmiss : ∃ l ∈ labels, itemMap l = none) :
    orderByNearestNeighbor labels itemMap start = none := by
  obtain ⟨l, hl, hnone⟩ := hmiss
  have hne : labels ≠ [] := by intro h; subst h; cases hl
  obtain ⟨k, hk⟩ : ∃ k, labels.length = k + 1 := by
    cases labels with
    | nil => exact absurd rfl hne
    | cons a t => exact ⟨t.length, rfl⟩
  unfold orderByNearestNeighbor
  rw [hk]
  simp only [nnLoop, if_neg hne,
    findBest_none_of_missing itemMap start labels 0 none ⟨l, hl, hnone⟩]

/-- Witness for C4 at a concrete shipment containing an unknown label. -/
theorem claim_C4_invalid_label_fails_witness :
    orderByNearestNeighbor ["A", "Z"] sampleItemMap (0, 0) = none :=
  claim_C4_invalid_label_fails ["A", "Z"] sampleItemMap (0, 0) (by decide)

section PeopleLemmas

/-- The rejection-sampling loop never exceeds the requested count. -/
theorem spawnGo_length_le (L : Layout) (rc : Nat → Nat × Nat) (rdir : Nat → Cell)
    (n : Nat) : ∀ (fuel i : Nat) (acc : List Person), acc.length ≤ n →
      (spawnGo L rc rdir n fuel i acc).length ≤ n := by
  intro fuel
  induction fuel with
  | zero => intro i acc h; exact h
  | succ m ih =>
    intro i acc h
    unfold spawnGo
    split
    · rename_i hlt
      split
      · exact ih (i + 1) acc h
      · split
        · exact ih (i + 1) acc h
        · split
          · exact ih (i + 1) acc h
          · refine ih (i + 1) _ ?_
            simp only [List.length_append, List.length_cons, List.length_nil]
            omega
    · exact h

/-- Every accepted pedestrian satisfies the spawn rejection predicate. -/
theorem spawnGo_good (L : Layout) (rc : Nat → Nat × Nat) (rdir : Nat → Cell)
    (n : Nat) (hr : 0 < L.rows) (hc : 0 < L.cols) :
    ∀ (fuel i : Nat) (acc : List Person),
      (∀ p ∈ acc, inBoundsP L p.pos.1 p.pos.2 ∧ ¬ isBlockedByShelves L p.pos ∧
        p.pos ∉ itemCells L ∧ p.pos ≠ L.dock ∧
        ∀ dc, L.drop = some dc → p.pos ≠ dc) →
      ∀ p ∈ spawnGo L rc rdir n fuel i acc,
        inBoundsP L p.pos.1 p.pos.2 ∧ ¬ isBlockedByShelves L p.pos ∧
        p.pos ∉ itemCells L ∧ p.pos ≠ L.dock ∧
        ∀ dc, L.drop = some dc → p.pos ≠ dc := by
  intro fuel
  induction fuel with
  | zero => intro i acc hacc; exact hacc
  | succ m ih =>
    intro i acc hacc
    unfold spawnGo
    split
    · rename_i hlt
      split
      · exact ih (i + 1) acc hacc
      · split
        · exact ih (i + 1) acc hacc
        · split
          · exact ih (i + 1) acc hacc
          · rename_i hshelf hitem hdockdrop
            refine ih (i + 1) _ ?_
            intro p hp
            rcases List.mem_append.mp hp with hp | hp
            · exact hacc p hp
            · have hp' : p = { pos := spawnCand L rc i, dir := rdir i } := by
                simpa using hp
              subst hp'
              push_neg at hdockdrop
              refine ⟨?_, hshelf, hitem, hdockdrop.1, ?_⟩
              · unfold spawnCand
                refine ⟨Int.emod_nonneg _ (by omega), Int.emod_lt_of_pos _ hr,
                  Int.emod_nonneg _ (by omega), Int.emod_lt_of_pos _ hc⟩
              · intro dc hdc
                have hnd := hdockdrop.2
                rw [hdc] at hnd
                simpa using hnd
    · exact hacc

/-- On the one-cell layout every candidate is the dock, so the loop
rejects forever and returns the empty list. -/
theorem spawnGo_dense_empty (rc : Nat → Nat × Nat) (rdir : Nat → Cell) :
    ∀ (fuel i : Nat), spawnGo denseLayout rc rdir 1 fuel i [] = [] := by
  intro fuel
  induction fuel with
  | zero => intro i; rfl
  | succ m ih =>
    intro i
    unfold spawnGo
    rw [if_pos (by simp)]
    have hcand : spawnCand denseLayout rc i = (0, 0) := by
      simp [spawnCand, denseLayout]
    rw [if_neg, if_neg, if_pos]
    · exact ih (i + 1)
    · rw [hcand]; left; rfl
    · rw [hcand]; simp [denseLayout, itemCells]
    · rw [hcand]; simp [denseLayout, isBlockedByShelves]

/-- `stepPeopleGo` preserves list length. -/
theorem stepPeopleGo_length (L : Layout) (bot : Cell) (rb : Nat → Bool)
    (rd : Nat → Cell) : ∀ (ps : List Person) (j : Nat),
      (stepPeopleGo L bot rb rd j ps).length = ps.length := by
  intro ps
  induction ps with
  | nil => intro j; rfl
  | cons p t ih => intro j; simp [stepPeopleGo, ih (j + 1)]

/-- Index-wise description of `stepPeopleGo`. -/
theorem stepPeopleGo_getD (L : Layout) (bot : Cell) (rb : Nat → Bool)
    (rd : Nat → Cell) : ∀ (ps : List Person) (j i : Nat), i < ps.length →
      (stepPeopleGo L bot rb rd j ps).getD i defaultPerson =
        stepOnePerson L bot (rb (j + i)) (rd (j + i)) (ps.getD i defaultPerson) := by
  intro ps
  induction ps with
  | nil => intro j i hi; simp at hi
  | cons p t ih =>
    intro j i hi
    cases i with
    | zero => simp [stepPeopleGo]
    | succ k =>
      have hk : k < t.length := by simpa using hi
      have := ih (j + 1) k hk
      simp only [stepPeopleGo, List.getD_cons_succ]
      rw [this]
      congr 2 <;> omega

/-- One pedestrian step preserves the position invariant and moves
forward, bounces, or stays. -/
theorem stepOnePerson_spec (L : Layout) (bot : Cell) (redir : Bool) (nd : Cell)
    (p : Person) (hgood : GoodPos L p.pos) :
    GoodPos L (stepOnePerson L bot redir nd p).pos ∧
    ((stepOnePerson L bot redir nd p).pos
        = (p.pos.1 + (if redir then nd else p.dir).1,
           p.pos.2 + (if redir then nd else p.dir).2) ∨
     (stepOnePerson L bot redir nd p).pos
        = (p.pos.1 - (if redir then nd else p.dir).1,
           p.pos.2 - (if redir then nd else p.dir).2) ∨
     (stepOnePerson L bot redir nd p).pos = p.pos) := by
  simp only [stepOnePerson]
  generalize (if redir then nd else p.dir) = dd
  split_ifs with h1 h2
  · exact ⟨hgood, Or.inr (Or.inr rfl)⟩
  · push_neg at h2
    refine ⟨⟨h2.1, h2.2.1, h2.2.2⟩, Or.inr (Or.inl ?_)⟩
    simp [Int.sub_eq_add_neg]
  · push_neg at h1
    exact ⟨⟨h1.1, h1.2.1, h1.2.2.1⟩, Or.inl rfl⟩

end PeopleLemmas

/-- C9: pedestrian spawning returns at most the requested count, each
pedestrian in bounds and not on a shelf, item cell, dock, or drop cell;
when the retry cap is exhausted the function silently returns fewer
pedestrians than requested (e.g. none at all on a saturated layout)
instead of signalling an error. -/
theorem claim_C9_spawnPeople_spec (L : Layout) (rc : Nat → Nat × Nat)
    (rdir : Nat → Cell) (n : Nat) (hr : 0 < L.rows) (hc : 0 < L.cols) :
    (spawnPeople L rc rdir n).length ≤ n ∧
    (∀ p ∈ spawnPeople L rc rdir n,
      inBoundsP L p.pos.1 p.pos.2 ∧ ¬ isBlockedByShelves L p.pos ∧
      p.pos ∉ itemCells L ∧ p.pos ≠ L.dock ∧
      ∀ dc, L.drop = some dc → p.pos ≠ dc) ∧
    spawnPeople denseLayout rc rdir 1 = [] := by
  refine ⟨?_, ?_, spawnGo_dense_empty rc rdir 4000 0⟩
  · exact spawnGo_length_le L rc rdir n 4000 0 [] (Nat.zero_le n)
  · exact spawnGo_good L rc rdir n hr hc 4000 0 [] (by intro p hp; cases hp)

/-- Witness for C9 on the saturated one-cell layout. -/
theorem claim_C9_spawnPeople_spec_witness :
    (spawnPeople denseLayout (fun _ => (0, 0)) (fun _ => (1, 0)) 1).length ≤ 1 ∧
    (∀ p ∈ spawnPeople denseLayout (fun _ => (0, 0)) (fun _ => (1, 0)) 1,
      inBoundsP denseLayout p.pos.1 p.pos.2 ∧
      ¬ isBlockedByShelves denseLayout p.pos ∧
      p.pos ∉ itemCells denseLayout ∧ p.pos ≠ denseLayout.dock ∧
      ∀ dc, denseLayout.drop = some dc → p.pos ≠ dc) ∧
    spawnPeople denseLayout (fun _ => (0, 0)) (fun _ => (1, 0)) 1 = [] :=
  claim_C9_spawnPeople_spec denseLayout (fun _ => (0, 0)) (fun _ => (1, 0)) 1
    (by decide) (by decide)

/-- C10: `stepPeople` preserves the pedestrian position invariant: a
pedestrian that starts in bounds, off shelves and off item cells stays
so, and it either takes its forward move, bounces to the reversed
direction, or stays in place. -/
theorem claim_C10_stepPeople_preserves (L : Layout) (bot : Cell)
    (rb : Nat → Bool) (rd : Nat → Cell) (people : List Person) (i : Nat)
    (hi : i < people.length)
    (hgood : GoodPos L ((people.getD i defaultPerson).pos)) :
    (stepPeople L bot rb rd people).length = people.length ∧
    GoodPos L (((stepPeople L bot rb rd people).getD i defaultPerson).pos) ∧
    (((stepPeople L bot rb rd people).getD i defaultPerson).pos
        = ((people.getD i defaultPerson).pos.1 +
            (if rb i then rd i else (people.getD i defaultPerson).dir).1,
           (people.getD i defaultPerson).pos.2 +
            (if rb i then rd i else (people.getD i defaultPerson).dir).2) ∨
     ((stepPeople L bot rb rd people).getD i defaultPerson).pos
        = ((people.getD i defaultPerson).pos.1 -
            (if rb i then rd i else (people.getD i defaultPerson).dir).1,
           (people.getD i defaultPerson).pos.2 -
            (if rb i then rd i else (people.getD i defaultPerson).dir).2) ∨
     ((stepPeople L bot rb rd people).getD i defaultPerson).pos
        = (people.getD i defaultPerson).pos) := by
  have hlen := stepPeopleGo_length L bot rb rd people 0
  have hidx := stepPeopleGo_getD L bot rb rd people 0 i hi
  rw [Nat.zero_add] at hidx
  have hspec := stepOnePerson_spec L bot (rb i) (rd i)
    (people.getD i defaultPerson) hgood
  unfold stepPeople
  rw [hidx]
  exact ⟨hlen, hspec.1, hspec.2⟩

/-- Witness for C10 at a concrete layout and pedestrian. -/
theorem claim_C10_stepPeople_preserves_witness :
    (stepPeople openLayout (0, 0) (fun _ => false) (fun _ => (0, 1))
        [{ pos := (1, 1), dir := (0, 1) }]).length =
      ([{ pos := (1, 1), dir := (0, 1) }] : List Person).length ∧
    GoodPos openLayout
      (((stepPeople openLayout (0, 0) (fun _ => false) (fun _ => (0, 1))
        [{ pos := (1, 1), dir := (0, 1) }]).getD 0 defaultPerson).pos) ∧
    (((stepPeople openLayout (0, 0) (fun _ => false) (fun _ => (0, 1))
        [{ pos := (1, 1), dir := (0, 1) }]).getD 0 defaultPerson).pos
        = ((1 : Int) + (0 : Int), (1 : Int) + (1 : Int)) ∨
     ((stepPeople openLayout (0, 0) (fun _ => false) (fun _ => (0, 1))
        [{ pos := (1, 1), dir := (0, 1) }]).getD 0 defaultPerson).pos
        = ((1 : Int) - (0 : Int), (1 : Int) - (1 : Int)) ∨
     ((stepPeople openLayout (0, 0) (fun _ => false) (fun _ => (0, 1))
        [{ pos := (1, 1), dir := (0, 1) }]).getD 0 defaultPerson).pos
        = ((1 : Int), (1 : Int))) :=
  claim_C10_stepPeople_preserves openLayout (0, 0) (fun _ => false)
    (fun _ => (0, 1)) [{ pos := (1, 1), dir := (0, 1) }] 0
    (by decide) (by decide)

section SchedulerLemmas

/-- The derived phase is never `idle`. -/
theorem deriveTarget_ne_idle (st : SimState) : (deriveTarget st).2 ≠ Phase.idle := by
  rcases hoc : st.orderCoords with _ | ⟨a, t⟩
  · by_cases hdel : st.delivered = true
    · simp [deriveTarget, hoc, hdel]
    · rcases hd : st.drop with _ | dc <;> simp [deriveTarget, hoc, hdel, hd]
  · simp [deriveTarget, hoc]

/-- Phase `picking` is derived only while stops are pending. -/
theorem deriveTarget_phase_picking (st : SimState) :
    (deriveTarget st).2 = Phase.picking → st.orderCoords ≠ [] := by
  intro h hnil
  by_cases hdel : st.delivered = true
  · simp [deriveTarget, hnil, hdel] at h
  · rcases hd : st.drop with _ | dc <;> simp [deriveTarget, hnil, hdel, hd] at h

/-- Phase `drop` is derived only with no pending stops and not yet
delivered. -/
theorem deriveTarget_phase_drop (st : SimState) :
    (deriveTarget st).2 = Phase.drop →
      st.orderCoords = [] ∧ st.delivered = false := by
  intro h
  rcases hoc : st.orderCoords with _ | ⟨a, t⟩
  · refine ⟨rfl, ?_⟩
    by_cases hdel : st.delivered = true
    · simp [deriveTarget, hoc, hdel] at h
    · cases hb : st.delivered with
      | false => rfl
      | true => exact absurd hb hdel
  · simp [deriveTarget, hoc] at h

/-- Fields `applyArrival` never touches. -/
theorem applyArrival_frame (st : SimState) (target : Cell) :
    (applyArrival st target).phase = st.phase ∧
    (applyArrival st target).running = st.running ∧
    (applyArrival st target).bot = st.bot ∧
    (applyArrival st target).time = st.time ∧
    (applyArrival st target).pathLen = st.pathLen ∧
    (applyArrival st target).safetyPauseTicks = st.safetyPauseTicks := by
  obtain ⟨bot, dock, drp, ol, oc, pk, ppl, tm, pl, spt, del, ph, cp, wt, ptk, er, run⟩ := st
  cases ph <;> by_cases hoc : oc.tail = [] <;> simp [applyArrival, hoc]

/-- Fields `moveStep` never touches. -/
theorem moveStep_frame (st : SimState) (target nrc : Cell) (newPath : List Cell) :
    (moveStep st target nrc newPath).phase = st.phase ∧
    (moveStep st target nrc newPath).running = st.running := by
  unfold moveStep applyArrivalIf
  split
  · have h := applyArrival_frame
      { st with
        pathLen := if nrc ≠ st.bot then st.pathLen + 1 else st.pathLen
        episodeReward := if nrc ≠ st.bot then st.episodeReward - 1 else st.episodeReward
        bot := nrc
        time := st.time + 1
        currentPath := newPath } target
    exact ⟨h.1, h.2.1⟩
  · exact ⟨rfl, rfl⟩

/-- Fields `tickMove` never touches. -/
theorem tickMove_frame (L : Layout) (st2 : SimState) (target : Cell) :
    (tickMove L st2 target).phase = st2.phase ∧
    (tickMove L st2 target).running = st2.running := by
  unfold tickMove
  split
  · rename_i step rest heq
    split
    · unfold tickWaitCap
      split <;> exact ⟨rfl, rfl⟩
    · exact moveStep_frame st2 target step rest
  · exact moveStep_frame st2 target st2.bot []

/-- `tickReplanOf` changes only the cached path and patience counter. -/
theorem tickReplanOf_frame (L : Layout) (st1 : SimState) (target : Cell) :
    (tickReplanOf L st1 target).phase = st1.phase ∧
    (tickReplanOf L st1 target).running = st1.running ∧
    (tickReplanOf L st1 target).bot = st1.bot ∧
    (tickReplanOf L st1 target).time = st1.time ∧
    (tickReplanOf L st1 target).safetyPauseTicks = st1.safetyPauseTicks ∧
    (tickReplanOf L st1 target).people = st1.people := by
  unfold tickReplanOf
  split <;> exact ⟨rfl, rfl, rfl, rfl, rfl, rfl⟩

/-- A tick is the done-check-then-move pipeline on the people-stepped,
phase-rederived state. -/
theorem tick_eq (L : Layout) (rb : Nat → Bool) (rd : Nat → Cell) (st : SimState) :
    tick L rb rd st =
      tickPlan L
        { peopleUpd L rb rd st with phase := (deriveTarget st).2 }
        (deriveTarget st).1 := rfl

theorem tickPlan_done (L : Layout) (st1 : SimState) (target : Cell)
    (h : st1.phase = Phase.ret ∧ st1.bot = st1.dock ∧ st1.delivered = true) :
    tickPlan L st1 target =
      { st1 with
          phase := Phase.idle
          running := false
          episodeReward := st1.episodeReward + 10 } := by
  unfold tickPlan
  rw [if_pos h]

theorem tickPlan_not_done (L : Layout) (st1 : SimState) (target : Cell)
    (h : ¬ (st1.phase = Phase.ret ∧ st1.bot = st1.dock ∧ st1.delivered = true)) :
    tickPlan L st1 target = tickMove L (tickReplanOf L st1 target) target := by
  unfold tickPlan
  rw [if_neg h]

/-- `tickMove` on a human-blocked first step: the waiting branch. -/
theorem tickMove_wait (L : Layout) (s2 : SimState) (target step : Cell)
    (rest : List Cell) (hpath : s2.currentPath = step :: rest)
    (hblock : humanBufferBlocks s2.people step.1 step.2) :
    tickMove L s2 target =
      tickWaitCap L
        { s2 with
          waitTicks := s2.waitTicks + 1
          time := s2.time + 1
          safetyPauseTicks := s2.safetyPauseTicks + 1
          episodeReward := s2.episodeReward - (1/2 : ℚ) }
        target := by
  unfold tickMove
  rw [hpath]
  show (if humanBufferBlocks s2.people step.1 step.2 then _ else _) = _
  rw [if_pos hblock]

/-- `tickMove` on an unblocked first step: pop it and move. -/
theorem tickMove_go (L : Layout) (s2 : SimState) (target step : Cell)
    (rest : List Cell) (hpath : s2.currentPath = step :: rest)
    (hnb : ¬ humanBufferBlocks s2.people step.1 step.2) :
    tickMove L s2 target = moveStep s2 target step rest := by
  unfold tickMove
  rw [hpath]
  show (if humanBufferBlocks s2.people step.1 step.2 then _ else _) = _
  rw [if_neg hnb]

/-- `tickMove` on an empty cached path: no movement, arrival check at
the bot's own cell. -/
theorem tickMove_empty (L : Layout) (s2 : SimState) (target : Cell)
    (hpath : s2.currentPath = []) :
    tickMove L s2 target = moveStep s2 target s2.bot [] := by
  unfold tickMove
  rw [hpath]

/-- All reward-audited fields are untouched by the replan decision. -/
theorem tickReplanOf_audit_frame (L : Layout) (st1 : SimState) (target : Cell) :
    (tickReplanOf L st1 target).picked = st1.picked ∧
    (tickReplanOf L st1 target).delivered = st1.delivered ∧
    (tickReplanOf L st1 target).orderCoords = st1.orderCoords ∧
    (tickReplanOf L st1 target).pathLen = st1.pathLen ∧
    (tickReplanOf L st1 target).safetyPauseTicks = st1.safetyPauseTicks ∧
    (tickReplanOf L st1 target).episodeReward = st1.episodeReward ∧
    (tickReplanOf L st1 target).phase = st1.phase ∧
    (tickReplanOf L st1 target).running = st1.running := by
  unfold tickReplanOf
  split <;> exact ⟨rfl, rfl, rfl, rfl, rfl, rfl, rfl, rfl⟩

/-- Arrival handling preserves the reward audit and the
delivered-implies-drained invariant. -/
theorem applyArrival_good (st : SimState) (target : Cell)
    (haud : Aud st) (hphase : st.phase ≠ Phase.idle)
    (hpick : st.phase = Phase.picking → st.delivered = false)
    (hdrp : st.phase = Phase.drop → st.delivered = false ∧ st.orderCoords = [])
    (hinv2 : st.delivered = true → st.orderCoords = []) :
    Aud (applyArrival st target) ∧
    ((applyArrival st target).delivered = true →
      (applyArrival st target).orderCoords = []) := by
  obtain ⟨bot, dock, drp, ol, oc, pk, ppl, tm, pl, spt, del, ph, cp, wt, ptk, er, run⟩ := st
  unfold Aud at haud ⊢
  cases ph
  case idle => exact absurd rfl hphase
  case picking =>
    have hdel : del = false := hpick rfl
    subst hdel
    simp only at haud
    by_cases hoc : oc.tail = [] <;>
      simp only [applyArrival, hoc, if_pos, if_neg, if_true, if_false] <;>
      constructor <;>
      simp_all <;>
      push_cast <;>
      linarith
  case drop =>
    obtain ⟨hdel, hoc⟩ := hdrp rfl
    subst hdel
    simp only at haud
    simp only [applyArrival]
    refine ⟨?_, fun _ => hoc⟩
    simp_all
    push_cast
    linarith
  case ret =>
    exact ⟨haud, hinv2⟩

/-- The movement step preserves the reward audit and invariants, and
never touches phase or the timer flag. -/
theorem moveStep_good (st : SimState) (target nrc : Cell) (newPath : List Cell)
    (haud : Aud st) (hphase : st.phase ≠ Phase.idle)
    (hpick : st.phase = Phase.picking → st.delivered = false)
    (hdrp : st.phase = Phase.drop → st.delivered = false ∧ st.orderCoords = [])
    (hinv2 : st.delivered = true → st.orderCoords = []) :
    Aud (moveStep st target nrc newPath) ∧
    ((moveStep st target nrc newPath).delivered = true →
      (moveStep st target nrc newPath).orderCoords = []) := by
  have haud' : Aud
      { st with
        pathLen := if nrc ≠ st.bot then st.pathLen + 1 else st.pathLen
        episodeReward := if nrc ≠ st.bot then st.episodeReward - 1 else st.episodeReward
        bot := nrc
        time := st.time + 1
        currentPath := newPath } := by
    unfold Aud at haud ⊢
    by_cases hm : nrc ≠ st.bot <;> simp only [hm, if_pos, if_neg, if_true, if_false] <;>
      simp_all <;> push_cast <;> linarith
  unfold moveStep applyArrivalIf
  split
  · exact applyArrival_good _ target haud' hphase hpick hdrp hinv2
  · exact ⟨haud', hinv2⟩

/-- The audit only reads six fields. -/
theorem Aud_congr {st1 st : SimState}
    (h1 : st1.picked = st.picked) (h2 : st1.delivered = st.delivered)
    (h3 : st1.phase = st.phase) (h4 : st1.pathLen = st.pathLen)
    (h5 : st1.safetyPauseTicks = st.safetyPauseTicks)
    (h6 : st1.episodeReward = st.episodeReward) : Aud st1 ↔ Aud st := by
  unfold Aud
  rw [h1, h2, h3, h4, h5, h6]

/-- Every tick from a live state preserves the reward-accounting
invariant. -/
theorem tick_good8 (L : Layout) (rb : Nat → Bool) (rd : Nat → Cell)
    (st : SimState) (hrun : st.running = true) (hg : Good8 st) :
    Good8 (tick L rb rd st) := by
  obtain ⟨haud, hinv2, hinv4, hinv3⟩ := hg
  have hphase0 : st.phase ≠ Phase.idle := hinv3 hrun
  have hne : (deriveTarget st).2 ≠ Phase.idle := deriveTarget_ne_idle st
  -- audit at the phase-rederived, people-stepped state
  have haud1 : Aud { peopleUpd L rb rd st with phase := (deriveTarget st).2 } := by
    unfold Aud at haud ⊢
    rw [if_neg hphase0] at haud
    rw [show ({ peopleUpd L rb rd st with
        phase := (deriveTarget st).2 } : SimState).phase = (deriveTarget st).2
      from rfl, if_neg hne]
    exact haud
  rw [tick_eq]
  by_cases hdone : (deriveTarget st).2 = Phase.ret ∧ st.bot = st.dock ∧
      st.delivered = true
  · rw [tickPlan_done L { peopleUpd L rb rd st with phase := (deriveTarget st).2 }
      (deriveTarget st).1 ⟨hdone.1, hdone.2.1, hdone.2.2⟩]
    refine ⟨?_, hinv2, fun _ => hdone.2.2, by intro h; cases h⟩
    · unfold Aud at haud1 ⊢
      rw [show ({ peopleUpd L rb rd st with
          phase := (deriveTarget st).2 } : SimState).phase = (deriveTarget st).2
        from rfl, if_neg hne] at haud1
      rw [if_pos rfl]
      linarith [haud1]
  · rw [tickPlan_not_done L { peopleUpd L rb rd st with
      phase := (deriveTarget st).2 } (deriveTarget st).1 hdone]
    -- shorthand for the controller state at the buffer check
    have hfr := tickReplanOf_audit_frame L
      { peopleUpd L rb rd st with phase := (deriveTarget st).2 } (deriveTarget st).1
    obtain ⟨f1, f2, f3, f4, f5, f6, f7, f8⟩ := hfr
    set s2 := tickReplanOf L
      { peopleUpd L rb rd st with phase := (deriveTarget st).2 }
      (deriveTarget st).1 with hs2
    have haud2 : Aud s2 := (Aud_congr f1 f2 f7 f4 f5 f6).mpr haud1
    have hph2 : s2.phase = (deriveTarget st).2 := f7
    have hdel2 : s2.delivered = st.delivered := f2
    have hoc2 : s2.orderCoords = st.orderCoords := f3
    have hrun2 : s2.running = true := by rw [f8]; exact hrun
    have hphase2 : s2.phase ≠ Phase.idle := by rw [hph2]; exact hne
    have hpick2 : s2.phase = Phase.picking → s2.delivered = false := by
      intro hp
      rw [hph2] at hp
      have hocne := deriveTarget_phase_picking st hp
      rw [hdel2]
      cases hb : st.delivered with
      | false => rfl
      | true => exact absurd (hinv2 hb) hocne
    have hdrp2 : s2.phase = Phase.drop → s2.delivered = false ∧
        s2.orderCoords = [] := by
      intro hp
      rw [hph2] at hp
      obtain ⟨ho, hd⟩ := deriveTarget_phase_drop st hp
      exact ⟨by rw [hdel2]; exact hd, by rw [hoc2]; exact ho⟩
    have hinv2' : s2.delivered = true → s2.orderCoords = [] := by
      intro hd
      rw [hoc2]
      exact hinv2 (by rw [← hdel2]; exact hd)
    -- the move/wait split
    rcases hcp : s2.currentPath with _ | ⟨step, rest⟩
    · rw [tickMove_empty L s2 (deriveTarget st).1 hcp]
      have hms := moveStep_good s2 (deriveTarget st).1 s2.bot []
        haud2 hphase2 hpick2 hdrp2 hinv2'
      have hfrm := moveStep_frame s2 (deriveTarget st).1 s2.bot []
      refine ⟨hms.1, hms.2, ?_, ?_⟩
      · intro hidle
        rw [hfrm.1] at hidle
        exact absurd hidle hphase2
      · intro _
        rw [hfrm.1]
        exact hphase2
    · by_cases hbl : humanBufferBlocks s2.people step.1 step.2
      · rw [tickMove_wait L s2 (deriveTarget st).1 step rest hcp hbl]
        have haud3 : Aud { s2 with
            waitTicks := s2.waitTicks + 1
            time := s2.time + 1
            safetyPauseTicks := s2.safetyPauseTicks + 1
            episodeReward := s2.episodeReward - (1/2 : ℚ) } := by
          unfold Aud at haud2 ⊢
          push_cast
          push_cast at haud2
          linarith [haud2]
        unfold tickWaitCap
        split
        · exact ⟨haud3, hinv2', by intro h; exact absurd h hphase2,
            fun _ => hphase2⟩
        · exact ⟨haud3, hinv2', by intro h; exact absurd h hphase2,
            fun _ => hphase2⟩
      · rw [tickMove_go L s2 (deriveTarget st).1 step rest hcp hbl]
        have hms := moveStep_good s2 (deriveTarget st).1 step rest
          haud2 hphase2 hpick2 hdrp2 hinv2'
        have hfrm := moveStep_frame s2 (deriveTarget st).1 step rest
        refine ⟨hms.1, hms.2, ?_, ?_⟩
        · intro hidle
          rw [hfrm.1] at hidle
          exact absurd hidle hphase2
        · intro _
          rw [hfrm.1]
          exact hphase2

/-- The invariant persists over any number of scheduled ticks. -/
theorem runN_good8 (L : Layout) (orc : Nat → (Nat → Bool) × (Nat → Cell)) :
    ∀ (n : Nat) (st : SimState), Good8 st → Good8 (runN L orc n st) := by
  intro n
  induction n with
  | zero => intro st hg; exact hg
  | succ m ih =>
    intro st hg
    unfold runN
    split
    · rename_i hrun
      exact ih _ (tick_good8 L (orc m).1 (orc m).2 st hrun hg)
    · exact hg

end SchedulerLemmas

/-- C8: starting from a fresh episode (nothing picked, counters and
reward zero, not delivered, phase `picking`), after any number of ticks
the accumulated scalar reward equals 20 per picked item, plus 30 once
delivered (successful drop), plus 10 once idle (docked delivered),
minus 1 per moved step, minus 1/2 per waiting tick; in particular at
episode completion (phase `idle`) it is
`10 + 20·picked + 30 − moves − 0.5·waits`. -/
theorem claim_C8_reward_accounting (L : Layout)
    (orc : Nat → (Nat → Bool) × (Nat → Cell)) (n : Nat) (st0 : SimState)
    (h1 : st0.picked = []) (h2 : st0.pathLen = 0)
    (h3 : st0.safetyPauseTicks = 0) (h4 : st0.episodeReward = 0)
    (h5 : st0.delivered = false) (h6 : st0.phase = Phase.picking) :
    (runN L orc n st0).episodeReward =
      20 * ((runN L orc n st0).picked.length : ℚ) +
      (if (runN L orc n st0).delivered then (30 : ℚ) else 0) +
      (if (runN L orc n st0).phase = Phase.idle then (10 : ℚ) else 0) -
      ((runN L orc n st0).pathLen : ℚ) -
      (1/2 : ℚ) * ((runN L orc n st0).safetyPauseTicks : ℚ) ∧
    ((runN L orc n st0).phase = Phase.idle →
      (runN L orc n st0).episodeReward =
        10 + 20 * ((runN L orc n st0).picked.length : ℚ) + 30 -
        ((runN L orc n st0).pathLen : ℚ) -
        (1/2 : ℚ) * ((runN L orc n st0).safetyPauseTicks : ℚ)) := by
  have hg0 : Good8 st0 := by
    refine ⟨?_, ?_, ?_, ?_⟩
    · unfold Aud
      rw [h1, h2, h3, h4, h5, h6]
      norm_num
      simp
    · intro hd; rw [h5] at hd; cases hd
    · intro hidle; rw [h6] at hidle; cases hidle
    · intro _; rw [h6]; intro hidle; cases hidle
  obtain ⟨haud, hinv2, hinv4, hinv3⟩ := runN_good8 L orc n st0 hg0
  unfold Aud at haud
  refine ⟨haud, ?_⟩
  intro hidle
  have hdel := hinv4 hidle
  rw [hidle, hdel] at haud
  rw [haud]
  norm_num
  ring

/-- Witness for C8: a fresh one-item episode state, zero ticks. -/
theorem claim_C8_reward_accounting_witness :
    (runN openLayout (fun _ => (fun _ => false, fun _ => (0, 1))) 0
        waitState).episodeReward =
      20 * (((runN openLayout (fun _ => (fun _ => false, fun _ => (0, 1))) 0
        waitState).picked.length : ℚ)) +
      (if (runN openLayout (fun _ => (fun _ => false, fun _ => (0, 1))) 0
        waitState).delivered then (30 : ℚ) else 0) +
      (if (runN openLayout (fun _ => (fun _ => false, fun _ => (0, 1))) 0
        waitState).phase = Phase.idle then (10 : ℚ) else 0) -
      (((runN openLayout (fun _ => (fun _ => false, fun _ => (0, 1))) 0
        waitState).pathLen : ℚ)) -
      (1/2 : ℚ) * (((runN openLayout (fun _ => (fun _ => false, fun _ => (0, 1))) 0
        waitState).safetyPauseTicks : ℚ)) ∧
    ((runN openLayout (fun _ => (fun _ => false, fun _ => (0, 1))) 0
        waitState).phase = Phase.idle →
      (runN openLayout (fun _ => (fun _ => false, fun _ => (0, 1))) 0
        waitState).episodeReward =
        10 + 20 * (((runN openLayout (fun _ => (fun _ => false, fun _ => (0, 1))) 0
          waitState).picked.length : ℚ)) + 30 -
        (((runN openLayout (fun _ => (fun _ => false, fun _ => (0, 1))) 0
          waitState).pathLen : ℚ)) -
        (1/2 : ℚ) * (((runN openLayout (fun _ => (fun _ => false, fun _ => (0, 1))) 0
          waitState).safetyPauseTicks : ℚ))) :=
  claim_C8_reward_accounting openLayout (fun _ => (fun _ => false, fun _ => (0, 1)))
    0 waitState rfl rfl rfl rfl rfl rfl

/-- C7: on every tick the scheduler re-derives the active target purely
from the current state — first pending stop while stops are pending
(phase `picking`); the drop cell when the pending list is empty,
`delivered` is false and a drop is configured (phase `drop`); otherwise
the dock (phase `return`) — and whenever the derived phase is `return`
with the bot at the dock and `delivered` set, the tick transitions to
`idle` and stops the timer; on every other tick the phase is exactly
the derived one and the timer stays as it was. -/
theorem claim_C7_scheduler_state_machine (L : Layout) (rb : Nat → Bool)
    (rd : Nat → Cell) (st : SimState) :
    (∀ t rest2, st.orderCoords = t :: rest2 →
      deriveTarget st = (t, Phase.picking)) ∧
    (∀ dc, st.orderCoords = [] → st.delivered = false → st.drop = some dc →
      deriveTarget st = (dc, Phase.drop)) ∧
    (st.orderCoords = [] → (st.delivered = true ∨ st.drop = none) →
      deriveTarget st = (st.dock, Phase.ret)) ∧
    ((deriveTarget st).2 = Phase.ret → st.bot = st.dock → st.delivered = true →
      (tick L rb rd st).phase = Phase.idle ∧ (tick L rb rd st).running = false) ∧
    (¬ ((deriveTarget st).2 = Phase.ret ∧ st.bot = st.dock ∧ st.delivered = true) →
      (tick L rb rd st).phase = (deriveTarget st).2 ∧
      (tick L rb rd st).running = st.running) := by
  refine ⟨?_, ?_, ?_, ?_, ?_⟩
  · intro t rest2 h
    simp [deriveTarget, h]
  · intro dc h1 h2 h3
    simp [deriveTarget, h1, h2, h3]
  · intro h1 h2
    rcases h2 with h2 | h2
    · simp [deriveTarget, h1, h2]
    · by_cases hdel : st.delivered = true
      · simp [deriveTarget, h1, hdel]
      · simp [deriveTarget, h1, hdel, h2]
  · intro hret hbot hdel
    rw [tick_eq, tickPlan_done L
      { peopleUpd L rb rd st with phase := (deriveTarget st).2 }
      (deriveTarget st).1 ⟨hret, hbot, hdel⟩]
    exact ⟨rfl, rfl⟩
  · intro hnot
    rw [tick_eq, tickPlan_not_done L
      { peopleUpd L rb rd st with phase := (deriveTarget st).2 }
      (deriveTarget st).1 hnot]
    have hmv := tickMove_frame L
      (tickReplanOf L { peopleUpd L rb rd st with phase := (deriveTarget st).2 }
        (deriveTarget st).1) (deriveTarget st).1
    have hrp := tickReplanOf_frame L
      { peopleUpd L rb rd st with phase := (deriveTarget st).2 } (deriveTarget st).1
    exact ⟨hmv.1.trans hrp.1, hmv.2.trans hrp.2.1⟩

/-- C6: on a tick where the cached path (after the replan decision) is
non-empty and its first queued cell lies within Chebyshev distance 1 of
some pedestrian, the controller waits: the bot does not move, the
queued step is not popped, the wait counter is incremented and the tick
clock advances; the wait-forced replan happens exactly when the counter
reaches `WAIT_MAX`, so the controller keeps waiting for at least
`WAIT_MAX - 1` ticks before any such replan. -/
theorem claim_C6_wait_before_replan (L : Layout) (rb : Nat → Bool)
    (rd : Nat → Cell) (st : SimState) (step : Cell) (rest : List Cell)
    (hnd : ¬ ((deriveTarget st).2 = Phase.ret ∧ st.bot = st.dock ∧
      st.delivered = true))
    (hpath : (tickReplanState L rb rd st).currentPath = step :: rest)
    (hblock : humanBufferBlocks (tickReplanState L rb rd st).people
      step.1 step.2) :
    (tick L rb rd st).bot = st.bot ∧
    (tick L rb rd st).time = st.time + 1 ∧
    (tick L rb rd st).safetyPauseTicks = st.safetyPauseTicks + 1 ∧
    ((tickReplanState L rb rd st).waitTicks + 1 < WAIT_MAX →
      (tick L rb rd st).waitTicks = (tickReplanState L rb rd st).waitTicks + 1 ∧
      (tick L rb rd st).currentPath = step :: rest) ∧
    (WAIT_MAX ≤ (tickReplanState L rb rd st).waitTicks + 1 →
      (tick L rb rd st).waitTicks = 0 ∧
      (tick L rb rd st).currentPath = astarStatic L st.bot (deriveTarget st).1) := by
  have hframe := tickReplanOf_frame L
    { peopleUpd L rb rd st with phase := (deriveTarget st).2 } (deriveTarget st).1
  have hbot2 : (tickReplanState L rb rd st).bot = st.bot := hframe.2.2.1
  have htime2 : (tickReplanState L rb rd st).time = st.time := hframe.2.2.2.1
  have hspt2 : (tickReplanState L rb rd st).safetyPauseTicks
      = st.safetyPauseTicks := hframe.2.2.2.2.1
  have hmove : tick L rb rd st =
      tickWaitCap L
        { tickReplanState L rb rd st with
          waitTicks := (tickReplanState L rb rd st).waitTicks + 1
          time := (tickReplanState L rb rd st).time + 1
          safetyPauseTicks := (tickReplanState L rb rd st).safetyPauseTicks + 1
          episodeReward := (tickReplanState L rb rd st).episodeReward - (1/2 : ℚ) }
        (deriveTarget st).1 := by
    rw [tick_eq, tickPlan_not_done L
      { peopleUpd L rb rd st with phase := (deriveTarget st).2 }
      (deriveTarget st).1 hnd]
    exact tickMove_wait L _ _ step rest hpath hblock
  rw [hmove]
  unfold tickWaitCap
  by_cases hcap : WAIT_MAX ≤ (tickReplanState L rb rd st).waitTicks + 1
  · rw [if_pos hcap]
    refine ⟨hbot2, by rw [htime2], by rw [hspt2], ?_, ?_⟩
    · intro hlt; omega
    · intro _
      refine ⟨rfl, ?_⟩
      show astarStatic L (tickReplanState L rb rd st).bot (deriveTarget st).1 = _
      rw [hbot2]
  · rw [if_neg hcap]
    refine ⟨hbot2, by rw [htime2], by rw [hspt2], ?_, ?_⟩
    · intro _; exact ⟨rfl, hpath⟩
    · intro hge; exact absurd hge hcap

/-- Witness for C6 at a concrete blocked state (wait counter far from
the patience threshold, so the queued step survives). -/
theorem claim_C6_wait_before_replan_witness :
    (tick openLayout (fun _ => false) (fun _ => (0, 1)) waitState).bot
        = waitState.bot ∧
    (tick openLayout (fun _ => false) (fun _ => (0, 1)) waitState).time
        = waitState.time + 1 ∧
    (tick openLayout (fun _ => false) (fun _ => (0, 1)) waitState).safetyPauseTicks
        = waitState.safetyPauseTicks + 1 ∧
    ((tickReplanState openLayout (fun _ => false) (fun _ => (0, 1))
        waitState).waitTicks + 1 < WAIT_MAX →
      (tick openLayout (fun _ => false) (fun _ => (0, 1)) waitState).waitTicks
          = (tickReplanState openLayout (fun _ => false) (fun _ => (0, 1))
              waitState).waitTicks + 1 ∧
      (tick openLayout (fun _ => false) (fun _ => (0, 1)) waitState).currentPath
          = (0, 1) :: [(0, 2)]) ∧
    (WAIT_MAX ≤ (tickReplanState openLayout (fun _ => false) (fun _ => (0, 1))
        waitState).waitTicks + 1 →
      (tick openLayout (fun _ => false) (fun _ => (0, 1)) waitState).waitTicks = 0 ∧
      (tick openLayout (fun _ => false) (fun _ => (0, 1)) waitState).currentPath
          = astarStatic openLayout waitState.bot (deriveTarget waitState).1) :=
  claim_C6_wait_before_replan openLayout (fun _ => false) (fun _ => (0, 1))
    waitState (0, 1) [(0, 2)] (by decide) (by decide) (by decide)

/-- Witness for C7 at a concrete docked, delivered state. -/
theorem claim_C7_scheduler_state_machine_witness :
    deriveTarget doneState = (doneState.dock, Phase.ret) ∧
    (tick openLayout (fun _ => false) (fun _ => (0, 1)) doneState).phase
      = Phase.idle ∧
    (tick openLayout (fun _ => false) (fun _ => (0, 1)) doneState).running
      = false :=
  have h := claim_C7_scheduler_state_machine openLayout (fun _ => false)
    (fun _ => (0, 1)) doneState
  have h4 := h.2.2.2.1 (by decide) (by decide) (by decide)
  ⟨h.2.2.1 (by decide) (by decide), h4.1, h4.2⟩

section WalkLemmas

theorem getLastD_append_list (l₁ l₂ : List Cell) (s : Cell) :
    (l₁ ++ l₂).getLastD s = l₂.getLastD (l₁.getLastD s) := by
  induction l₁ generalizing s with
  | nil => rfl
  | cons a t ih => simp only [List.cons_append, List.getLastD_cons, ih]

theorem getLastD_concat_cell (l : List Cell) (s b : Cell) :
    (l ++ [b]).getLastD s = b := by
  rw [getLastD_append_list]
  rfl

theorem chain_prefix {R : Cell → Cell → Prop} :
    ∀ (l₁ l₂ : List Cell) (s : Cell), List.Chain R s (l₁ ++ l₂) →
      List.Chain R s l₁ := by
  intro l₁
  induction l₁ with
  | nil => intro l₂ s _; exact List.Chain.nil
  | cons a t ih =>
    intro l₂ s h
    rw [List.cons_append, List.chain_cons] at h
    exact List.Chain.cons h.1 (ih l₂ a h.2)

theorem chain_suffix {R : Cell → Cell → Prop} :
    ∀ (l₁ l₂ : List Cell) (s : Cell), List.Chain R s (l₁ ++ l₂) →
      List.Chain R (l₁.getLastD s) l₂ := by
  intro l₁
  induction l₁ with
  | nil => intro l₂ s h; exact h
  | cons a t ih =>
    intro l₂ s h
    rw [List.cons_append, List.chain_cons] at h
    simpa only [List.getLastD_cons] using ih l₂ a h.2

theorem chain_concat {R : Cell → Cell → Prop} (l : List Cell) (s b : Cell)
    (hc : List.Chain R s l) (hr : R (l.getLastD s) b) :
    List.Chain R s (l ++ [b]) := by
  induction l generalizing s with
  | nil => exact List.Chain.cons hr List.Chain.nil
  | cons a t ih =>
    rw [List.chain_cons] at hc
    rw [List.cons_append, List.chain_cons]
    refine ⟨hc.1, ih a hc.2 ?_⟩
    simpa only [List.getLastD_cons] using hr

/-- Every cell of a valid walk is in bounds and off the shelves. -/
theorem walk_cells (L : Layout) :
    ∀ (t : List Cell) (s : Cell), ValidWalk L s t →
      ∀ x ∈ t, inBoundsP L x.1 x.2 ∧ x ∉ L.obstacles := by
  intro t
  induction t with
  | nil => intro s _ x hx; cases hx
  | cons a r ih =>
    intro s h x hx
    rw [ValidWalk, List.chain_cons] at h
    rcases List.mem_cons.mp hx with rfl | hx
    · exact ⟨h.1.1, h.1.2.1⟩
    · exact ih a h.2 x hx

/-- The Manhattan distance between the endpoints of a walk is at most
its length. -/
theorem manhattan_le_walk (L : Layout) :
    ∀ (t : List Cell) (s : Cell), ValidWalk L s t →
      manhattan s (t.getLastD s) ≤ t.length := by
  intro t
  induction t with
  | nil => intro s _; simp [manhattan]
  | cons a r ih =>
    intro s h
    rw [ValidWalk, List.chain_cons] at h
    have h1 : manhattan s a = 1 := h.1.2.2
    have h2 := ih a h.2
    calc manhattan s ((a :: r).getLastD s)
        = manhattan s (r.getLastD a) := by rw [List.getLastD_cons]
      _ ≤ manhattan s a + manhattan a (r.getLastD a) := manhattan_triangle _ _ _
      _ ≤ 1 + r.length := by rw [h1]; omega
      _ = (a :: r).length := by simp [Nat.add_comm]

/-- Splitting a list at the last occurrence of a member. -/
theorem last_occurrence_split {α : Type} [DecidableEq α] :
    ∀ (l : List α) (a : α), a ∈ l → ∃ l₁ l₂, l = l₁ ++ a :: l₂ ∧ a ∉ l₂ := by
  intro l
  induction l with
  | nil => intro a ha; cases ha
  | cons b t ih =>
    intro a ha
    by_cases hat : a ∈ t
    · obtain ⟨l₁, l₂, heq, hnot⟩ := ih a hat
      exact ⟨b :: l₁, l₂, by rw [heq]; rfl, hnot⟩
    · rcases List.mem_cons.mp ha with rfl | h
      · exact ⟨[], t, rfl, hat⟩
      · exact absurd h hat

end WalkLemmas

section FindMinLemmas

theorem findMin_none_iff (l : List (Cell × ANode)) :
    findMin l = none ↔ l = [] := by
  cases l with
  | nil => simp [findMin]
  | cons kn t =>
    cases hf : findMin t with
    | none => simp [findMin, hf]
    | some b =>
      simp only [findMin, hf]
      by_cases hlt : b.2.f < kn.2.f
      · rw [if_pos hlt]; simp
      · rw [if_neg hlt]; simp

theorem findMin_mem (l : List (Cell × ANode)) (kn : Cell × ANode)
    (h : findMin l = some kn) : kn ∈ l := by
  induction l generalizing kn with
  | nil => cases h
  | cons a t ih =>
    cases hf : findMin t with
    | none =>
      simp only [findMin, hf] at h
      cases h
      exact List.mem_cons_self a t
    | some b =>
      simp only [findMin, hf] at h
      by_cases hlt : b.2.f < a.2.f
      · rw [if_pos hlt] at h
        cases h
        exact List.mem_cons_of_mem a (ih _ hf)
      · rw [if_neg hlt] at h
        cases h
        exact List.mem_cons_self a t

theorem findMin_min (l : List (Cell × ANode)) (kn : Cell × ANode)
    (h : findMin l = some kn) : ∀ kn' ∈ l, kn.2.f ≤ kn'.2.f := by
  induction l generalizing kn with
  | nil => cases h
  | cons a t ih =>
    intro kn' hkn'
    cases hf : findMin t with
    | none =>
      simp only [findMin, hf] at h
      cases h
      have ht : t = [] := (findMin_none_iff t).mp hf
      subst ht
      rcases List.mem_cons.mp hkn' with rfl | h2
      · exact Nat.le_refl _
      · cases h2
    | some b =>
      simp only [findMin, hf] at h
      by_cases hlt : b.2.f < a.2.f
      · rw [if_pos hlt] at h
        cases h
        rcases List.mem_cons.mp hkn' with rfl | h2
        · exact Nat.le_of_lt hlt
        · exact ih _ hf kn' h2
      · rw [if_neg hlt] at h
        cases h
        rcases List.mem_cons.mp hkn' with rfl | h2
        · exact Nat.le_refl _
        · have := ih _ hf kn' h2
          omega

end FindMinLemmas

section MapOpsLemmas

theorem lookupCell_mem (l : List (Cell × ANode)) (k : Cell) (n : ANode)
    (h : lookupCell l k = some n) : (k, n) ∈ l := by
  induction l with
  | nil => cases h
  | cons kn t ih =>
    simp only [lookupCell] at h
    split at h
    · rename_i heq
      cases h
      rw [← heq]
      exact List.mem_cons_self kn t
    · exact List.mem_cons_of_mem kn (ih h)

theorem mem_lookupCell (l : List (Cell × ANode)) (k : Cell) (n : ANode)
    (hnd : (l.map Prod.fst).Nodup) (h : (k, n) ∈ l) :
    lookupCell l k = some n := by
  induction l with
  | nil => cases h
  | cons kn t ih =>
    simp only [List.map_cons, List.nodup_cons] at hnd
    rcases List.mem_cons.mp h with rfl | h2
    · simp [lookupCell]
    · have hne : kn.1 ≠ k := by
        intro heq
        refine hnd.1 ?_
        rw [heq]
        exact List.mem_map_of_mem Prod.fst h2
      simp only [lookupCell, if_neg hne]
      exact ih hnd.2 h2

theorem mapSet_keys (l : List (Cell × ANode)) (k : Cell) (v : ANode) :
    (mapSet l k v).map Prod.fst =
      if k ∈ l.map Prod.fst then l.map Prod.fst else l.map Prod.fst ++ [k] := by
  induction l with
  | nil => simp [mapSet]
  | cons kn t ih =>
    simp only [mapSet]
    by_cases h : kn.1 = k
    · subst h
      simp
    · rw [if_neg h]
      simp only [List.map_cons, ih]
      by_cases hk : k ∈ t.map Prod.fst
      · rw [if_pos hk, if_pos (List.mem_cons_of_mem _ hk)]
      · rw [if_neg hk, if_neg ?_]
        · simp
        · intro hc
          rcases List.mem_cons.mp hc with hc | hc
          · exact h hc.symm
          · exact hk hc

theorem mapSet_nodup (l : List (Cell × ANode)) (k : Cell) (v : ANode)
    (hnd : (l.map Prod.fst).Nodup) : ((mapSet l k v).map Prod.fst).Nodup := by
  rw [mapSet_keys]
  split
  · exact hnd
  · rename_i hk
    rw [List.nodup_append]
    refine ⟨hnd, List.nodup_singleton k, ?_⟩
    intro a ha hb
    simp only [List.mem_singleton] at hb
    exact hk (hb ▸ ha)

theorem mem_mapSet (l : List (Cell × ANode)) (k : Cell) (v : ANode)
    (kn : Cell × ANode) (hnd : (l.map Prod.fst).Nodup)
    (h : kn ∈ mapSet l k v) : kn = (k, v) ∨ (kn ∈ l ∧ kn.1 ≠ k) := by
  induction l with
  | nil =>
    simp only [mapSet] at h
    rcases List.mem_cons.mp h with rfl | h2
    · exact Or.inl rfl
    · cases h2
  | cons a t ih =>
    simp only [List.map_cons, List.nodup_cons] at hnd
    simp only [mapSet] at h
    split at h
    · rename_i heq
      rcases List.mem_cons.mp h with rfl | h2
      · exact Or.inl rfl
      · refine Or.inr ⟨List.mem_cons_of_mem a h2, ?_⟩
        intro hkn
        refine hnd.1 ?_
        rw [heq, ← hkn]
        exact List.mem_map_of_mem Prod.fst h2
    · rename_i hne
      rcases List.mem_cons.mp h with rfl | h2
      · exact Or.inr ⟨List.mem_cons_self kn t, hne⟩
      · rcases ih hnd.2 h2 with h3 | h3
        · exact Or.inl h3
        · exact Or.inr ⟨List.mem_cons_of_mem a h3.1, h3.2⟩

theorem mapSet_mem_self (l : List (Cell × ANode)) (k : Cell) (v : ANode) :
    (k, v) ∈ mapSet l k v := by
  induction l with
  | nil => exact List.mem_cons_self _ _
  | cons a t ih =>
    simp only [mapSet]
    split
    · exact List.mem_cons_self _ _
    · exact List.mem_cons_of_mem a ih

theorem mapSet_mem_other (l : List (Cell × ANode)) (k : Cell) (v : ANode)
    (kn : Cell × ANode) (h : kn ∈ l) (hne : kn.1 ≠ k) : kn ∈ mapSet l k v := by
  induction l with
  | nil => cases h
  | cons a t ih =>
    simp only [mapSet]
    rcases List.mem_cons.mp h with rfl | h2
    · rw [if_neg hne]
      exact List.mem_cons_self kn (mapSet t k v)
    · split
      · exact List.mem_cons_of_mem (k, v) h2
      · exact List.mem_cons_of_mem a (ih h2)

end MapOpsLemmas

section ChainOkLemmas

/-- A well-formed parent chain reconstructs to a valid walk from the
start to the node's cell, of length exactly `g`. -/
theorem chainOk_reconstruct (L : Layout) (start : Cell) :
    ∀ (n : ANode), chainOk L start n →
      ValidWalk L start (reconstruct n) ∧
      (reconstruct n).getLastD start = n.cell ∧
      (reconstruct n).length = n.g := by
  intro n
  induction n with
  | root r c g f =>
    intro h
    obtain ⟨hc, hg⟩ := h
    refine ⟨List.Chain.nil, ?_, ?_⟩
    · simp only [reconstruct, List.getLastD_nil, ANode.cell, ANode.r, ANode.c]
      exact hc.symm
    · simp [reconstruct, ANode.g, hg]
  | node r c g f p ih =>
    intro h
    obtain ⟨hstep, hg, hok⟩ := h
    obtain ⟨hwalk, hlast, hlen⟩ := ih hok
    refine ⟨?_, ?_, ?_⟩
    · show ValidWalk L start (reconstruct p ++ [(r, c)])
      exact chain_concat _ _ _ hwalk (by rw [hlast]; exact hstep)
    · show (reconstruct p ++ [(r, c)]).getLastD start = (ANode.node r c g f p).cell
      rw [getLastD_concat_cell]
      rfl
    · show (reconstruct p ++ [(r, c)]).length = (ANode.node r c g f p).g
      simp only [List.length_append, List.length_cons, List.length_nil, hlen]
      show p.g + (0 + 1) = g
      omega

/-- 4-adjacent cells differ by exactly one source direction. -/
theorem adjacent_dir (a b : Cell) (h : manhattan a b = 1) :
    ∃ d ∈ dirs, b = (a.1 + d.1, a.2 + d.2) := by
  obtain ⟨ar, ac⟩ := a
  obtain ⟨br, bc⟩ := b
  unfold manhattan at h
  simp only at h
  by_cases h1 : br = ar + 1
  · exact ⟨(1, 0), by simp [dirs], by simp [h1]; omega⟩
  · by_cases h2 : br = ar - 1
    · exact ⟨(-1, 0), by simp [dirs], by simp [h2]; omega⟩
    · by_cases h3 : bc = ac + 1
      · refine ⟨(0, 1), by simp [dirs], by simp [h3]; omega⟩
      · refine ⟨(0, -1), by simp [dirs], ?_⟩
        have hbr : br = ar := by omega
        have hbc : bc = ac - 1 := by omega
        simp only [Prod.mk.injEq]
        omega

end ChainOkLemmas

section RelaxLemmas

/-- `relax` only adds or improves entries; an existing bound survives. -/
theorem relax_mono (L : Layout) (goal : Cell) (closed : List Cell) (m : ANode)
    (acc : List (Cell × ANode)) (d : Cell) (k : Cell) (X : Nat)
    (hnd : (acc.map Prod.fst).Nodup)
    (h : ∃ n, (k, n) ∈ acc ∧ n.g ≤ X) :
    ∃ n', (k, n') ∈ relax L goal closed m acc d ∧ n'.g ≤ X := by
  obtain ⟨n, hn, hg⟩ := h
  unfold relax
  split
  · exact ⟨n, hn, hg⟩
  · split
    · exact ⟨n, hn, hg⟩
    · split
      · exact ⟨n, hn, hg⟩
      · by_cases hk : k = moveCell m d
        · have hl : lookupCell acc (moveCell m d) = some n := by
            rw [← hk]
            exact mem_lookupCell acc k n hnd hn
          rw [hl]
          show ∃ n', (k, n') ∈
              (if m.g + 1 < n.g then
                mapSet acc (moveCell m d) (newANode goal m (moveCell m d))
              else acc) ∧ n'.g ≤ X
          by_cases hlt : m.g + 1 < n.g
          · rw [if_pos hlt]
            refine ⟨newANode goal m (moveCell m d), ?_, ?_⟩
            · rw [hk]
              exact mapSet_mem_self acc _ _
            · show m.g + 1 ≤ X
              omega
          · rw [if_neg hlt]
            exact ⟨n, hn, hg⟩
        · have hne : (k, n).1 ≠ moveCell m d := hk
          split
          · split
            · exact ⟨n, mapSet_mem_other acc _ _ _ hn hne, hg⟩
            · exact ⟨n, hn, hg⟩
          · exact ⟨n, mapSet_mem_other acc _ _ _ hn hne, hg⟩

/-- After relaxing direction `d`, the moved-to cell (if legal and not
closed) carries an entry with `g ≤ m.g + 1`. -/
theorem relax_hit (L : Layout) (goal : Cell) (closed : List Cell) (m : ANode)
    (acc : List (Cell × ANode)) (d : Cell)
    (hnd : (acc.map Prod.fst).Nodup)
    (hin : inBoundsP L (moveCell m d).1 (moveCell m d).2)
    (hob : moveCell m d ∉ L.obstacles)
    (hcl : moveCell m d ∉ closed) :
    ∃ n', (moveCell m d, n') ∈ relax L goal closed m acc d ∧ n'.g ≤ m.g + 1 := by
  unfold relax
  rw [if_neg (by simpa using hin), if_neg hob, if_neg hcl]
  cases hl : lookupCell acc (moveCell m d) with
  | none =>
    exact ⟨newANode goal m (moveCell m d), mapSet_mem_self _ _ _, Nat.le_refl _⟩
  | some prev =>
    show ∃ n', (moveCell m d, n') ∈
        (if m.g + 1 < prev.g then
          mapSet acc (moveCell m d) (newANode goal m (moveCell m d))
        else acc) ∧ n'.g ≤ m.g + 1
    by_cases hlt : m.g + 1 < prev.g
    · rw [if_pos hlt]
      exact ⟨newANode goal m (moveCell m d), mapSet_mem_self _ _ _, Nat.le_refl _⟩
    · rw [if_neg hlt]
      exact ⟨prev, lookupCell_mem _ _ _ hl, by omega⟩

/-- Every entry after `relax` is an old entry or the freshly relaxed
neighbor node. -/
theorem relax_sound (L : Layout) (goal : Cell) (closed : List Cell) (m : ANode)
    (acc : List (Cell × ANode)) (d : Cell) (kn : Cell × ANode)
    (hnd : (acc.map Prod.fst).Nodup)
    (h : kn ∈ relax L goal closed m acc d) :
    kn ∈ acc ∨
    (kn = (moveCell m d, newANode goal m (moveCell m d)) ∧
      inBoundsP L (moveCell m d).1 (moveCell m d).2 ∧
      moveCell m d ∉ L.obstacles ∧ moveCell m d ∉ closed) := by
  unfold relax at h
  split at h
  · exact Or.inl h
  · rename_i hin
    split at h
    · exact Or.inl h
    · rename_i hob
      split at h
      · exact Or.inl h
      · rename_i hcl
        have hcase : kn ∈ mapSet acc (moveCell m d) (newANode goal m (moveCell m d)) → _ :=
          fun hm => mem_mapSet acc _ _ kn hnd hm
        split at h
        · split at h
          · rcases hcase h with h2 | h2
            · exact Or.inr ⟨h2, by simpa using hin, hob, hcl⟩
            · exact Or.inl h2.1
          · exact Or.inl h
        · rcases hcase h with h2 | h2
          · exact Or.inr ⟨h2, by simpa using hin, hob, hcl⟩
          · exact Or.inl h2.1

/-- `relax` preserves key distinctness. -/
theorem relax_nodup (L : Layout) (goal : Cell) (closed : List Cell) (m : ANode)
    (acc : List (Cell × ANode)) (d : Cell)
    (hnd : (acc.map Prod.fst).Nodup) :
    ((relax L goal closed m acc d).map Prod.fst).Nodup := by
  unfold relax
  split
  · exact hnd
  · split
    · exact hnd
    · split
      · exact hnd
      · split
        · split
          · exact mapSet_nodup _ _ _ hnd
          · exact hnd
        · exact mapSet_nodup _ _ _ hnd

end RelaxLemmas

section ExpandLemmas

theorem expand_nodup (L : Layout) (goal : Cell) (closed : List Cell) (m : ANode) :
    ∀ (ds : List Cell) (acc : List (Cell × ANode)),
      (acc.map Prod.fst).Nodup →
      ((ds.foldl (relax L goal closed m) acc).map Prod.fst).Nodup := by
  intro ds
  induction ds with
  | nil => intro acc h; exact h
  | cons d t ih =>
    intro acc h
    exact ih _ (relax_nodup L goal closed m acc d h)

theorem expand_mono (L : Layout) (goal : Cell) (closed : List Cell) (m : ANode) :
    ∀ (ds : List Cell) (acc : List (Cell × ANode)) (k : Cell) (X : Nat),
      (acc.map Prod.fst).Nodup →
      (∃ n, (k, n) ∈ acc ∧ n.g ≤ X) →
      ∃ n', (k, n') ∈ ds.foldl (relax L goal closed m) acc ∧ n'.g ≤ X := by
  intro ds
  induction ds with
  | nil => intro acc k X _ h; exact h
  | cons d t ih =>
    intro acc k X hnd h
    exact ih _ k X (relax_nodup L goal closed m acc d hnd)
      (relax_mono L goal closed m acc d k X hnd h)

theorem expand_sound (L : Layout) (goal : Cell) (closed : List Cell) (m : ANode) :
    ∀ (ds : List Cell) (acc : List (Cell × ANode)) (kn : Cell × ANode),
      (acc.map Prod.fst).Nodup →
      kn ∈ ds.foldl (relax L goal closed m) acc →
      kn ∈ acc ∨
      ∃ d ∈ ds, kn = (moveCell m d, newANode goal m (moveCell m d)) ∧
        inBoundsP L (moveCell m d).1 (moveCell m d).2 ∧
        moveCell m d ∉ L.obstacles ∧ moveCell m d ∉ closed := by
  intro ds
  induction ds with
  | nil => intro acc kn _ h; exact Or.inl h
  | cons d t ih =>
    intro acc kn hnd h
    rcases ih _ kn (relax_nodup L goal closed m acc d hnd) h with h2 | h2
    · rcases relax_sound L goal closed m acc d kn hnd h2 with h3 | h3
      · exact Or.inl h3
      · exact Or.inr ⟨d, List.mem_cons_self d t, h3⟩
    · obtain ⟨d', hd', h3⟩ := h2
      exact Or.inr ⟨d', List.mem_cons_of_mem d hd', h3⟩

theorem expand_hit (L : Layout) (goal : Cell) (closed : List Cell) (m : ANode) :
    ∀ (ds : List Cell) (acc : List (Cell × ANode)) (d : Cell),
      d ∈ ds → (acc.map Prod.fst).Nodup →
      inBoundsP L (moveCell m d).1 (moveCell m d).2 →
      moveCell m d ∉ L.obstacles → moveCell m d ∉ closed →
      ∃ n', (moveCell m d, n') ∈ ds.foldl (relax L goal closed m) acc ∧
        n'.g ≤ m.g + 1 := by
  intro ds
  induction ds with
  | nil => intro acc d hd; cases hd
  | cons d0 t ih =>
    intro acc d hd hnd hin hob hcl
    rcases List.mem_cons.mp hd with rfl | hd2
    · exact expand_mono L goal closed m t _ _ _
        (relax_nodup L goal closed m acc d hnd)
        (relax_hit L goal closed m acc d hnd hin hob hcl)
    · exact ih _ d hd2 (relax_nodup L goal closed m acc d0 hnd) hin hob hcl

end ExpandLemmas

section AStarInvariant

theorem manhattan_self (a : Cell) : manhattan a a = 0 := by
  unfold manhattan; omega

/-- Moving one source direction from a node's cell is one unit of
Manhattan distance. -/
theorem manhattan_moveCell (m : ANode) (d : Cell) (hd : d ∈ dirs) :
    manhattan m.cell (moveCell m d) = 1 := by
  simp only [dirs, List.mem_cons, List.not_mem_nil, or_false] at hd
  rcases hd with rfl | rfl | rfl | rfl <;>
    (unfold manhattan moveCell ANode.cell; dsimp only; omega)

theorem mem_gridFinset (L : Layout) (x : Cell) (h : inBoundsP L x.1 x.2) :
    x ∈ gridFinset L := by
  obtain ⟨r, c⟩ := x
  obtain ⟨h1, h2, h3, h4⟩ := h
  simp only [gridFinset, Finset.mem_image, Finset.mem_product, Finset.mem_range,
    Prod.exists]
  refine ⟨r.toNat, c.toNat, ⟨?_, ?_⟩, ?_⟩
  · omega
  · omega
  · simp only [Prod.mk.injEq]
    constructor <;> omega

/-- The closed set never outgrows the grid plus the start cell. -/
theorem closed_length_le (L : Layout) (start goal : Cell)
    (opn : List (Cell × ANode)) (closed : List Cell)
    (inv : AInv L start goal opn closed) :
    closed.length ≤ L.rows.toNat * L.cols.toNat + 1 := by
  have hnd := inv.closedNodup
  have hsub : closed.toFinset ⊆ insert start (gridFinset L) := by
    intro x hx
    rw [List.mem_toFinset] at hx
    rcases inv.closedScope x hx with rfl | h
    · exact Finset.mem_insert_self _ _
    · exact Finset.mem_insert_of_mem (mem_gridFinset L x h)
  have hcard : closed.toFinset.card = closed.length := List.toFinset_card_of_nodup hnd
  have hle := Finset.card_le_card hsub
  have hins : (insert start (gridFinset L)).card ≤ (gridFinset L).card + 1 :=
    Finset.card_insert_le _ _
  have hgrid : (gridFinset L).card ≤ L.rows.toNat * L.cols.toNat := by
    calc (gridFinset L).card
        ≤ ((Finset.range L.rows.toNat) ×ˢ (Finset.range L.cols.toNat)).card :=
          Finset.card_image_le
      _ = L.rows.toNat * L.cols.toNat := by
          rw [Finset.card_product, Finset.card_range, Finset.card_range]
  omega

/-- The last cell of a non-empty list is a member. -/
theorem getLastD_mem_of_cons (c0 : Cell) (t : List Cell) (s : Cell) :
    (c0 :: t).getLastD s ∈ c0 :: t := by
  induction t generalizing c0 s with
  | nil =>
    rw [List.getLastD_cons]
    exact List.mem_singleton.mpr rfl
  | cons c1 t ih =>
    rw [List.getLastD_cons]
    exact List.mem_cons_of_mem _ (ih c1 c0)

/-- When the popped node sits on the goal, its `g` is at most the length
of every valid walk from the start to the goal (by `f`-minimality over
the frontier, admissibility of the Manhattan heuristic, and the frontier
invariant). -/
theorem pop_goal_min (L : Layout) (start goal : Cell)
    (opn : List (Cell × ANode)) (closed : List Cell)
    (inv : AInv L start goal opn closed)
    (bk : Cell) (bn : ANode) (hpop : findMin opn = some (bk, bn))
    (hgoal : bn.r = goal.1 ∧ bn.c = goal.2) :
    ∀ t, ValidWalk L start t → t.getLastD start = goal → bn.g ≤ t.length := by
  intro t ht hlast
  have hmem := findMin_mem opn (bk, bn) hpop
  obtain ⟨hcell, hf, hok, hst⟩ := inv.agree (bk, bn) hmem
  dsimp only at hcell hf
  have hbk : bk = goal := by
    rw [← hcell]
    show (bn.r, bn.c) = goal
    rw [hgoal.1, hgoal.2]
  have hne : t.getLastD start ∉ closed := by rw [hlast]; exact inv.goalOpen
  obtain ⟨pre, mid, hsplit, ⟨n, hnmem, hng⟩, hmidc⟩ := inv.opt t ht hne
  have hmin := findMin_min opn (bk, bn) hpop (pre.getLastD start, n) hnmem
  obtain ⟨hncell, hnf, hnok, hnst⟩ := inv.agree (pre.getLastD start, n) hnmem
  dsimp only at hnf hmin
  have hmidwalk : List.Chain (validStep L) (pre.getLastD start) mid := by
    rw [hsplit] at ht
    exact chain_suffix pre mid start ht
  have hmlast : mid.getLastD (pre.getLastD start) = goal := by
    rw [hsplit, getLastD_append_list] at hlast
    exact hlast
  have hmanh : manhattan (pre.getLastD start) goal ≤ mid.length := by
    rw [← hmlast]
    exact manhattan_le_walk L mid _ hmidwalk
  have hlen : t.length = pre.length + mid.length := by
    rw [hsplit, List.length_append]
  have hmm : manhattan bk goal = 0 := by rw [hbk]; exact manhattan_self goal
  omega

end AStarInvariant

section AStarStep

/-- One A* iteration (pop the `f`-minimal node, close its key, relax its
four neighbors into the remaining frontier) preserves the loop
invariant. -/
theorem AInv_step (L : Layout) (start goal : Cell)
    (opn : List (Cell × ANode)) (closed : List Cell)
    (inv : AInv L start goal opn closed)
    (bk : Cell) (bn : ANode) (hpop : findMin opn = some (bk, bn))
    (hng : ¬(bn.r = goal.1 ∧ bn.c = goal.2)) :
    AInv L start goal
      (expandNode L goal (bk :: closed) bn (opn.filter (fun p => p.1 ≠ bk)))
      (bk :: closed) := by
  have hmem := findMin_mem opn (bk, bn) hpop
  obtain ⟨hcell, hf, hok, hst⟩ := inv.agree (bk, bn) hmem
  dsimp only at hcell hf
  have hbkcl : bk ∉ closed := inv.disj (bk, bn) hmem
  have hbkgoal : bk ≠ goal := by
    intro h
    apply hng
    constructor
    · rw [show goal.1 = bk.1 from by rw [h], ← hcell]
      rfl
    · rw [show goal.2 = bk.2 from by rw [h], ← hcell]
      rfl
  have hbr : bn.r = bk.1 := congrArg Prod.fst hcell
  have hbc : bn.c = bk.2 := congrArg Prod.snd hcell
  have hFnd : ((opn.filter (fun p => p.1 ≠ bk)).map Prod.fst).Nodup :=
    List.Nodup.sublist (List.Sublist.map Prod.fst (List.filter_sublist opn))
      inv.nodupKeys
  have hFmem : ∀ kn, kn ∈ opn.filter (fun p => p.1 ≠ bk) → kn ∈ opn ∧ kn.1 ≠ bk := by
    intro kn hkn
    have h2 := List.mem_filter.mp hkn
    exact ⟨h2.1, by simpa using h2.2⟩
  have hFmemi : ∀ kn ∈ opn, kn.1 ≠ bk → kn ∈ opn.filter (fun p => p.1 ≠ bk) := by
    intro kn h h2
    exact List.mem_filter.mpr ⟨h, by simpa using h2⟩
  have hsound : ∀ kn, kn ∈ expandNode L goal (bk :: closed) bn
      (opn.filter (fun p => p.1 ≠ bk)) →
      kn ∈ opn.filter (fun p => p.1 ≠ bk) ∨ ∃ d ∈ dirs,
        kn = (moveCell bn d, newANode goal bn (moveCell bn d)) ∧
        inBoundsP L (moveCell bn d).1 (moveCell bn d).2 ∧
        moveCell bn d ∉ L.obstacles ∧ moveCell bn d ∉ bk :: closed := by
    intro kn h
    exact expand_sound L goal (bk :: closed) bn dirs _ kn hFnd h
  have hstartmem : ∀ x : Cell, x ∉ bk :: closed → ¬ x = start := by
    intro x hx heq
    rcases inv.startClosed with h | ⟨hc, hall⟩
    · exact hx (List.mem_cons_of_mem _ (heq ▸ h))
    · have hbs : bk = start := hall (bk, bn) hmem
      apply hx
      rw [heq, ← hbs]
      exact List.mem_cons_self _ _
  refine ⟨?_, ?_, ?_, ?_, ?_, ?_, ?_, ?_, ?_⟩
  · exact expand_nodup L goal (bk :: closed) bn dirs _ hFnd
  · intro kn hkn
    rcases hsound kn hkn with h | ⟨d, hd, rfl, hin, hob, hncl⟩
    · exact inv.agree kn (hFmem kn h).1
    · refine ⟨?_, rfl, ?_, ?_⟩
      · show ((moveCell bn d).1, (moveCell bn d).2) = moveCell bn d
        rfl
      · exact ⟨⟨hin, hob, manhattan_moveCell bn d hd⟩, rfl, hok⟩
      · show start ∉ reconstruct bn ++ [((moveCell bn d).1, (moveCell bn d).2)]
        intro hmem2
        rcases List.mem_append.mp hmem2 with h2 | h2
        · exact hst h2
        · exact hstartmem (moveCell bn d) hncl (List.mem_singleton.mp h2).symm
  · intro kn hkn
    rcases hsound kn hkn with h | ⟨d, hd, rfl, hin, hob, hncl⟩
    · obtain ⟨hmo, hneq⟩ := hFmem kn h
      intro hc
      rcases List.mem_cons.mp hc with h2 | h2
      · exact hneq h2
      · exact inv.disj kn hmo h2
    · exact hncl
  · exact List.nodup_cons.mpr ⟨hbkcl, inv.closedNodup⟩
  · intro x hx
    rcases List.mem_cons.mp hx with rfl | h2
    · exact inv.openScope (x, bn) hmem
    · exact inv.closedScope x h2
  · intro kn hkn
    rcases hsound kn hkn with h | ⟨d, hd, rfl, hin, hob, hncl⟩
    · exact inv.openScope kn (hFmem kn h).1
    · exact Or.inr hin
  · intro hc
    rcases List.mem_cons.mp hc with h | h
    · exact hbkgoal h.symm
    · exact inv.goalOpen h
  · left
    rcases inv.startClosed with h | ⟨hc, hall⟩
    · exact List.mem_cons_of_mem _ h
    · rw [← hall (bk, bn) hmem]
      exact List.mem_cons_self _ _
  · intro tail htail htlast
    have htlast0 : tail.getLastD start ∉ closed :=
      fun h => htlast (List.mem_cons_of_mem _ h)
    obtain ⟨pre, mid, hsplit, ⟨n, hnmem, hng2⟩, hmidc⟩ := inv.opt tail htail htlast0
    by_cases hbkmid : bk ∈ mid
    · obtain ⟨mid1, mid2, hmid, hbk2⟩ := last_occurrence_split mid bk hbkmid
      cases mid2 with
      | nil =>
        exfalso
        apply htlast
        have hlb : tail.getLastD start = bk := by
          rw [hsplit, hmid, getLastD_append_list, getLastD_append_list]
          rfl
        rw [hlb]
        exact List.mem_cons_self _ _
      | cons c0 mid2 =>
        have hchainmid : List.Chain (validStep L) (pre.getLastD start) mid := by
          rw [hsplit] at htail
          exact chain_suffix pre mid start htail
        have hchain2 : List.Chain (validStep L)
            (mid1.getLastD (pre.getLastD start)) (bk :: c0 :: mid2) := by
          rw [hmid] at hchainmid
          exact chain_suffix mid1 (bk :: c0 :: mid2) _ hchainmid
        have hstep : validStep L bk c0 := by
          rcases List.chain_cons.mp hchain2 with ⟨_, h2⟩
          exact (List.chain_cons.mp h2).1
        have hc0 : c0 ∉ closed := by
          apply hmidc c0
          rw [hmid]
          exact List.mem_append_right _ (List.mem_cons_of_mem _ (List.mem_cons_self _ _))
        have hc0bk : c0 ≠ bk := by
          intro h
          apply hbk2
          rw [← h]
          exact List.mem_cons_self _ _
        obtain ⟨d, hd, hc0eq⟩ := adjacent_dir bk c0 hstep.2.2
        have hmv : moveCell bn d = c0 := by
          rw [hc0eq]
          show (bn.r + d.1, bn.c + d.2) = (bk.1 + d.1, bk.2 + d.2)
          rw [hbr, hbc]
        obtain ⟨hncell, hnf, hnok, hnst⟩ := inv.agree (pre.getLastD start, n) hnmem
        dsimp only at hnf
        have hminf := findMin_min opn (bk, bn) hpop (pre.getLastD start, n) hnmem
        dsimp only at hminf
        have hwalk1 : List.Chain (validStep L) (pre.getLastD start) (mid1 ++ [bk]) := by
          rw [hmid] at hchainmid
          have he : mid1 ++ bk :: c0 :: mid2 = (mid1 ++ [bk]) ++ (c0 :: mid2) := by
            simp
          rw [he] at hchainmid
          exact chain_prefix _ _ _ hchainmid
        have hlastbk : (mid1 ++ [bk]).getLastD (pre.getLastD start) = bk :=
          getLastD_concat_cell _ _ _
        have hman1 : manhattan (pre.getLastD start) bk ≤ mid1.length + 1 := by
          have h2 := manhattan_le_walk L (mid1 ++ [bk]) (pre.getLastD start) hwalk1
          rw [hlastbk] at h2
          simpa using h2
        have htri := manhattan_triangle (pre.getLastD start) bk goal
        have hbng : bn.g ≤ pre.length + (mid1.length + 1) := by omega
        have hc0ncl : moveCell bn d ∉ bk :: closed := by
          rw [hmv]
          intro h
          rcases List.mem_cons.mp h with h2 | h2
          · exact hc0bk h2
          · exact hc0 h2
        have hin : inBoundsP L (moveCell bn d).1 (moveCell bn d).2 := by
          rw [hmv]; exact hstep.1
        have hob2 : moveCell bn d ∉ L.obstacles := by
          rw [hmv]; exact hstep.2.1
        obtain ⟨n2, hn2mem, hn2g⟩ :=
          expand_hit L goal (bk :: closed) bn dirs _ d hd hFnd hin hob2 hc0ncl
        refine ⟨pre ++ mid1 ++ [bk, c0], mid2, ?_, ⟨n2, ?_, ?_⟩, ?_⟩
        · rw [hsplit, hmid]
          simp
        · have hl2 : (pre ++ mid1 ++ [bk, c0]).getLastD start = c0 := by
            rw [getLastD_append_list]
            rfl
          rw [hl2, ← hmv]
          exact hn2mem
        · simp only [List.length_append, List.length_cons, List.length_nil]
          omega
        · intro x hx hc
          rcases List.mem_cons.mp hc with h2 | h2
          · exact hbk2 (h2 ▸ List.mem_cons_of_mem c0 hx)
          · apply hmidc x ?_ h2
            rw [hmid]
            exact List.mem_append_right _
              (List.mem_cons_of_mem _ (List.mem_cons_of_mem _ hx))
    · by_cases hpb : pre.getLastD start = bk
      · have hbn : n = bn := by
          have h1 : (bk, n) ∈ opn := by rw [← hpb]; exact hnmem
          have e1 := mem_lookupCell opn bk n inv.nodupKeys h1
          have e2 := mem_lookupCell opn bk bn inv.nodupKeys hmem
          rw [e1] at e2
          exact Option.some.inj e2
        cases mid with
        | nil =>
          exfalso
          apply htlast
          rw [hsplit]
          simp only [List.append_nil]
          rw [hpb]
          exact List.mem_cons_self _ _
        | cons c0 mid2 =>
          have hchainmid : List.Chain (validStep L) (pre.getLastD start) (c0 :: mid2) := by
            rw [hsplit] at htail
            exact chain_suffix pre _ start htail
          have hstep : validStep L bk c0 := by
            rw [hpb] at hchainmid
            exact (List.chain_cons.mp hchainmid).1
          have hc0 : c0 ∉ closed := hmidc c0 (List.mem_cons_self _ _)
          have hc0bk : c0 ≠ bk := by
            intro h
            apply hbkmid
            rw [← h]
            exact List.mem_cons_self _ _
          obtain ⟨d, hd, hc0eq⟩ := adjacent_dir bk c0 hstep.2.2
          have hmv : moveCell bn d = c0 := by
            rw [hc0eq]
            show (bn.r + d.1, bn.c + d.2) = (bk.1 + d.1, bk.2 + d.2)
            rw [hbr, hbc]
          have hc0ncl : moveCell bn d ∉ bk :: closed := by
            rw [hmv]
            intro h
            rcases List.mem_cons.mp h with h2 | h2
            · exact hc0bk h2
            · exact hc0 h2
          have hin : inBoundsP L (moveCell bn d).1 (moveCell bn d).2 := by
            rw [hmv]; exact hstep.1
          have hob2 : moveCell bn d ∉ L.obstacles := by
            rw [hmv]; exact hstep.2.1
          obtain ⟨n2, hn2mem, hn2g⟩ :=
            expand_hit L goal (bk :: closed) bn dirs _ d hd hFnd hin hob2 hc0ncl
          refine ⟨pre ++ [c0], mid2, ?_, ⟨n2, ?_, ?_⟩, ?_⟩
          · rw [hsplit]
            simp
          · have hl2 : (pre ++ [c0]).getLastD start = c0 := getLastD_concat_cell _ _ _
            rw [hl2, ← hmv]
            exact hn2mem
          · simp only [List.length_append, List.length_cons, List.length_nil]
            rw [hbn] at hng2
            omega
          · intro x hx hc
            rcases List.mem_cons.mp hc with h2 | h2
            · exact hbkmid (h2 ▸ List.mem_cons_of_mem c0 hx)
            · exact hmidc x (List.mem_cons_of_mem _ hx) h2
      · have hsurv : (pre.getLastD start, n) ∈ opn.filter (fun p => p.1 ≠ bk) :=
          hFmemi _ hnmem hpb
        obtain ⟨n2, hn2mem, hn2g⟩ := expand_mono L goal (bk :: closed) bn dirs _
          (pre.getLastD start) pre.length hFnd ⟨n, hsurv, hng2⟩
        refine ⟨pre, mid, hsplit, ⟨n2, hn2mem, hn2g⟩, ?_⟩
        intro x hx hc
        rcases List.mem_cons.mp hc with h2 | h2
        · exact hbkmid (h2 ▸ hx)
        · exact hmidc x hx h2

end AStarStep

section AStarMain

/-- The invariant holds on entry: a single root frontier node at the
start, empty closed set. -/
theorem AInv_init (L : Layout) (start goal : Cell) :
    AInv L start goal
      [(start, ANode.root start.1 start.2 0 (manhattan start goal))] [] := by
  refine ⟨?_, ?_, ?_, ?_, ?_, ?_, ?_, ?_, ?_⟩
  · simp
  · intro kn hkn
    rcases List.mem_singleton.mp hkn with rfl
    refine ⟨?_, ?_, ?_, ?_⟩
    · show ((start.1 : Int), (start.2 : Int)) = start
      rfl
    · show manhattan start goal = 0 + manhattan start goal
      omega
    · exact ⟨rfl, rfl⟩
    · intro h
      cases h
  · intro kn hkn
    exact List.not_mem_nil _
  · exact List.nodup_nil
  · intro x hx
    cases hx
  · intro kn hkn
    rcases List.mem_singleton.mp hkn with rfl
    left
    rfl
  · exact List.not_mem_nil _
  · right
    refine ⟨rfl, ?_⟩
    intro kn hkn
    rcases List.mem_singleton.mp hkn with rfl
    rfl
  · intro tail htail hlast
    refine ⟨[], tail, rfl,
      ⟨ANode.root start.1 start.2 0 (manhattan start goal), ?_, ?_⟩, ?_⟩
    · exact List.mem_singleton.mpr rfl
    · exact Nat.le_refl 0
    · intro x hx h
      cases h

/-- The main loop lemma: under the invariant and with enough fuel, the
loop returns a shortest valid walk from start (exclusive) to goal when
one exists, and the empty list otherwise. -/
theorem astarLoop_correct (L : Layout) (start goal : Cell) :
    ∀ (fuel : Nat) (opn : List (Cell × ANode)) (closed : List Cell),
      AInv L start goal opn closed →
      L.rows.toNat * L.cols.toNat + 2 ≤ closed.length + fuel →
      (Reachable L start goal →
        ValidWalk L start (astarLoop L goal fuel opn closed) ∧
        (astarLoop L goal fuel opn closed).getLastD start = goal ∧
        start ∉ astarLoop L goal fuel opn closed ∧
        ∀ t, ValidWalk L start t → t.getLastD start = goal →
          (astarLoop L goal fuel opn closed).length ≤ t.length) ∧
      (¬ Reachable L start goal → astarLoop L goal fuel opn closed = []) := by
  intro fuel
  induction fuel with
  | zero =>
    intro opn closed inv hfuel
    exfalso
    have hcl := closed_length_le L start goal opn closed inv
    omega
  | succ fuel ih =>
    intro opn closed inv hfuel
    cases hf : findMin opn with
    | none =>
      have hopn : opn = [] := (findMin_none_iff opn).mp hf
      have heq : astarLoop L goal (fuel + 1) opn closed = [] := by
        simp only [astarLoop, hf]
      rw [heq]
      constructor
      · intro hreach
        exfalso
        obtain ⟨t, ht, hlast⟩ := hreach
        have hnc : t.getLastD start ∉ closed := by
          rw [hlast]; exact inv.goalOpen
        obtain ⟨pre, mid, _, ⟨n, hnmem, _⟩, _⟩ := inv.opt t ht hnc
        rw [hopn] at hnmem
        cases hnmem
      · intro _
        rfl
    | some kn =>
      by_cases hgoal : kn.2.r = goal.1 ∧ kn.2.c = goal.2
      · have heq : astarLoop L goal (fuel + 1) opn closed = reconstruct kn.2 := by
          simp only [astarLoop, hf, if_pos hgoal]
        rw [heq]
        have hmem := findMin_mem opn kn hf
        obtain ⟨hcell, hff, hok, hst⟩ := inv.agree kn hmem
        obtain ⟨hwalk, hlast, hlen⟩ := chainOk_reconstruct L start kn.2 hok
        have hkg : kn.1 = goal := by
          rw [← hcell]
          show (kn.2.r, kn.2.c) = goal
          rw [hgoal.1, hgoal.2]
        constructor
        · intro _
          refine ⟨hwalk, ?_, hst, ?_⟩
          · rw [hlast, hcell]
            exact hkg
          · intro t ht hl
            rw [hlen]
            exact pop_goal_min L start goal opn closed inv kn.1 kn.2 hf hgoal t ht hl
        · intro hnr
          exfalso
          refine hnr ⟨reconstruct kn.2, hwalk, ?_⟩
          rw [hlast, hcell]
          exact hkg
      · have heq : astarLoop L goal (fuel + 1) opn closed =
            astarLoop L goal fuel
              (expandNode L goal (kn.1 :: closed) kn.2
                (opn.filter (fun p => p.1 ≠ kn.1)))
              (kn.1 :: closed) := by
          simp only [astarLoop, hf, if_neg hgoal]
        rw [heq]
        have hstep := AInv_step L start goal opn closed inv kn.1 kn.2 hf hgoal
        apply ih _ _ hstep
        simp only [List.length_cons]
        omega

/-- `astarStatic` correctness, instantiating the loop lemma at the
initial state. -/
theorem astarStatic_correct (L : Layout) (start goal : Cell) :
    (Reachable L start goal →
      ValidWalk L start (astarStatic L start goal) ∧
      (astarStatic L start goal).getLastD start = goal ∧
      start ∉ astarStatic L start goal ∧
      ∀ t, ValidWalk L start t → t.getLastD start = goal →
        (astarStatic L start goal).length ≤ t.length) ∧
    (¬ Reachable L start goal → astarStatic L start goal = []) :=
  astarLoop_correct L start goal (L.rows.toNat * L.cols.toNat + 2)
    [(start, ANode.root start.1 start.2 0 (manhattan start goal))] []
    (AInv_init L start goal) (by omega)

/-- Popping a frontier that consists of a root node already sitting on
the goal returns the empty path at once. -/
theorem astarLoop_goal_pop (L : Layout) (goal : Cell) (fuel : Nat)
    (g f : Nat) (closed : List Cell) :
    astarLoop L goal (fuel + 1)
      [(goal, ANode.root goal.1 goal.2 g f)] closed = [] := by
  simp only [astarLoop, findMin]
  rw [if_pos ⟨rfl, rfl⟩]
  rfl

end AStarMain

section StraightWalk

/-- One monotone step towards a distinct in-bounds target is a unit
Manhattan move that stays in bounds and decrements the distance. -/
theorem stepToward_spec (L : Layout) (a b : Cell)
    (hab : a ≠ b) (hina : inBoundsP L a.1 a.2) (hinb : inBoundsP L b.1 b.2) :
    manhattan a (stepToward a b) = 1 ∧
    manhattan (stepToward a b) b + 1 = manhattan a b ∧
    inBoundsP L (stepToward a b).1 (stepToward a b).2 := by
  obtain ⟨ar, ac⟩ := a
  obtain ⟨br, bc⟩ := b
  obtain ⟨h1, h2, h3, h4⟩ := hina
  obtain ⟨h5, h6, h7, h8⟩ := hinb
  have hne : ar ≠ br ∨ ac ≠ bc := by
    by_contra h
    push_neg at h
    exact hab (by rw [h.1, h.2])
  unfold stepToward manhattan inBoundsP
  by_cases c1 : ar < br
  · rw [if_pos c1]
    exact ⟨by dsimp only; omega, by dsimp only; omega, by dsimp only; omega⟩
  · rw [if_neg c1]
    by_cases c2 : br < ar
    · rw [if_pos c2]
      exact ⟨by dsimp only; omega, by dsimp only; omega, by dsimp only; omega⟩
    · rw [if_neg c2]
      by_cases c3 : ac < bc
      · rw [if_pos c3]
        exact ⟨by dsimp only; omega, by dsimp only; omega, by dsimp only; omega⟩
      · rw [if_neg c3]
        have h9 : bc < ac := by rcases hne with h | h <;> omega
        exact ⟨by dsimp only; omega, by dsimp only; omega, by dsimp only; omega⟩

/-- On an obstacle-free layout the straight walk between two in-bounds
cells is a valid walk of length exactly the Manhattan distance. -/
theorem straightGo_spec (L : Layout) (hobs : L.obstacles = []) :
    ∀ (n : Nat) (a b : Cell), manhattan a b = n →
      inBoundsP L a.1 a.2 → inBoundsP L b.1 b.2 →
      ValidWalk L a (straightGo n a b) ∧
      (straightGo n a b).getLastD a = b ∧
      (straightGo n a b).length = n := by
  intro n
  induction n with
  | zero =>
    intro a b hm _ _
    have hab : a = b := by
      obtain ⟨ar, ac⟩ := a
      obtain ⟨br, bc⟩ := b
      unfold manhattan at hm
      simp only [Prod.mk.injEq]
      dsimp only at hm
      omega
    exact ⟨List.Chain.nil, hab, rfl⟩
  | succ n ih =>
    intro a b hm hina hinb
    have hab : a ≠ b := by
      intro h
      rw [h] at hm
      rw [manhattan_self] at hm
      omega
    obtain ⟨h1, h2, h3⟩ := stepToward_spec L a b hab hina hinb
    have hm2 : manhattan (stepToward a b) b = n := by omega
    obtain ⟨w1, w2, w3⟩ := ih (stepToward a b) b hm2 h3 hinb
    refine ⟨?_, ?_, ?_⟩
    · show List.Chain (validStep L) a (stepToward a b :: straightGo n (stepToward a b) b)
      refine List.chain_cons.mpr ⟨⟨h3, ?_, h1⟩, w1⟩
      rw [hobs]
      exact List.not_mem_nil _
    · show (stepToward a b :: straightGo n (stepToward a b) b).getLastD a = b
      rw [List.getLastD_cons]
      exact w2
    · show (stepToward a b :: straightGo n (stepToward a b) b).length = n + 1
      rw [List.length_cons, w3]

end StraightWalk

section ClaimC2C5

/-- C2: when the goal is reachable from the start by in-bounds,
unblocked 4-neighbor moves, the A* search with uniform step cost 1 and
Manhattan heuristic returns a valid walk ending at the goal whose length
is at most the length of every such walk (so it equals the shortest path
length); in particular with no obstacles and in-bounds endpoints its
length equals the Manhattan distance from start to goal. -/
theorem claim_C2_astar_shortest (L : Layout) (start goal : Cell)
    (hreach : Reachable L start goal) :
    (ValidWalk L start (astarStatic L start goal) ∧
      (astarStatic L start goal).getLastD start = goal ∧
      ∀ t, ValidWalk L start t → t.getLastD start = goal →
        (astarStatic L start goal).length ≤ t.length) ∧
    (L.obstacles = [] → inBoundsP L start.1 start.2 → inBoundsP L goal.1 goal.2 →
      (astarStatic L start goal).length = manhattan start goal) := by
  obtain ⟨hwalk, hlast, hstart, hmin⟩ := (astarStatic_correct L start goal).1 hreach
  refine ⟨⟨hwalk, hlast, hmin⟩, ?_⟩
  intro hobs hin1 hin2
  obtain ⟨w1, w2, w3⟩ :=
    straightGo_spec L hobs (manhattan start goal) start goal rfl hin1 hin2
  have hle : (astarStatic L start goal).length ≤ manhattan start goal := by
    have h2 := hmin (straightGo (manhattan start goal) start goal) w1 w2
    omega
  have hge : manhattan start goal ≤ (astarStatic L start goal).length := by
    have h2 := manhattan_le_walk L (astarStatic L start goal) start hwalk
    rw [hlast] at h2
    exact h2
  omega

/-- Witness for C2 at the spec's example: a 1×6 obstacle-free corridor,
start `(0,0)`, goal `(0,5)`; the returned path length is the Manhattan
distance 5. -/
theorem claim_C2_astar_shortest_witness :
    (astarStatic rowLayout (0, 0) (0, 5)).length = manhattan (0, 0) (0, 5) :=
  (claim_C2_astar_shortest rowLayout (0, 0) (0, 5)
      ⟨[(0, 1), (0, 2), (0, 3), (0, 4), (0, 5)],
        List.Chain.cons (by decide) (List.Chain.cons (by decide)
          (List.Chain.cons (by decide) (List.Chain.cons (by decide)
            (List.Chain.cons (by decide) List.Chain.nil)))),
        rfl⟩).2
    rfl (by decide) (by decide)

/-- C5: the path returned by `astarStatic` never contains the start cell
and ends at the goal whenever the goal is reachable by in-bounds,
unblocked 4-neighbor moves; it is the empty sequence when the goal is
unreachable, and in particular when the goal cell itself is a blocked
(shelf) cell. -/
theorem claim_C5_findPath_contract (L : Layout) (start goal : Cell) :
    (Reachable L start goal →
      start ∉ astarStatic L start goal ∧
      (astarStatic L start goal).getLastD start = goal) ∧
    (¬ Reachable L start goal → astarStatic L start goal = []) ∧
    (goal ∈ L.obstacles → astarStatic L start goal = []) := by
  obtain ⟨h1, h2⟩ := astarStatic_correct L start goal
  refine ⟨?_, h2, ?_⟩
  · intro hr
    obtain ⟨_, hl, hs, _⟩ := h1 hr
    exact ⟨hs, hl⟩
  · intro hblocked
    by_cases hsg : start = goal
    · subst hsg
      exact astarLoop_goal_pop L start (L.rows.toNat * L.cols.toNat + 1) 0
        (manhattan start start) []
    · apply h2
      rintro ⟨t, ht, hlast⟩
      cases t with
      | nil => exact hsg hlast
      | cons c0 t2 =>
        have hmem : (c0 :: t2).getLastD start ∈ c0 :: t2 :=
          getLastD_mem_of_cons c0 t2 start
        have hnob := (walk_cells L (c0 :: t2) start ht _ hmem).2
        rw [hlast] at hnob
        exact hnob hblocked

end ClaimC2C5
